import Mathlib

/-!
# Verification of the pyoptimal constraint-ranking learning engine

This file gives a shallow embedding, in Lean 4, of the core of the
`pyoptimal` repository: the `PartialOrder` dominance structure over
constraints (`src/pyoptimal/learner.py`), the OT learners — basic
constraint demotion, RCD, EDCD, GLA, MaxEnt (`src/pyoptimal/ot.py`) —
the Harmonic Grammar learner (`src/pyoptimal/hg.py`), and the `Learner`
facade (`src/pyoptimal/learner.py`).

Modelling conventions:
* A `Constraint` is identified by its name (the Python class compares and
  hashes by name only), so constraints are embedded as `String`s.
* Python `dict`s of violation counts are embedded as association lists
  `List (String × Nat)`; `dict.get(k, 0)` is `vget`.
* Weight/ranking dictionaries keyed by the declared constraint names are
  embedded as total functions `String → ℚ` together with the declared-name
  list; the Python `weights.get(name, 0.0)` lookup is `wget`, which
  returns 0 outside the declared names exactly as the dict does.
* Python floats are embedded as rationals `ℚ` (no float rounding is
  relevant to any property proved here; `math.exp` in MaxEnt is kept as
  an explicit function parameter since it is transcendental).
* The recursive `PartialOrder.dominates`, which can diverge on cyclic
  graphs, is embedded fuel-indexed (`dominatesF`): `none` models
  divergence, and termination theorems show the fuel `defaultFuel` is
  always sufficient on acyclic graphs.
* The `while` loops of `get_strata` and RCD are embedded fuel-indexed as
  well, with the fuel chosen (and proved) large enough to reproduce the
  Python loop exactly.
-/

namespace Pyoptimal

/-- One training example (`grammar.py`, class `Example`): an input→output
pairing, an optimality flag, and a violation dictionary mapping constraint
name to violation count (embedded as an association list). -/
structure Example where
  input_form : String
  output_form : String
  optimal : Bool
  violations : List (String × Nat)
deriving DecidableEq, Repr

/-- `violations.get(name, 0)`: first binding of `name`, defaulting to 0. -/
def vget (v : List (String × Nat)) (name : String) : Nat :=
  match v.find? (fun p => p.1 = name) with
  | some p => p.2
  | none => 0

/-- A grammar (`grammar.py`, class `Grammar`): the declared constraint
names, in order, plus the training examples.  `Constraint` objects are
compared and hashed by name only, so they are embedded as their names. -/
structure Grammar where
  constraints : List String
  examples : List Example
deriving DecidableEq, Repr

/-- `Grammar.get_constraint(name)`: `some name` iff `name` is declared. -/
def Grammar.get_constraint (g : Grammar) (name : String) : Option String :=
  if name ∈ g.constraints then some name else none

/-- The dominance structure (`learner.py`, class `PartialOrder`): the
constraint set it was constructed with, and the direct-dominance relation
`_dominance` as an edge list (`(higher, lower)` for `higher >> lower`);
membership in the edge list models membership in the Python per-key sets. -/
structure PartialOrder where
  constraints : List String
  edges : List (String × String)
deriving DecidableEq, Repr

/-- `PartialOrder.__init__`: all constraints, no dominance edges. -/
def PartialOrder.init (constraints : List String) : PartialOrder :=
  ⟨constraints, []⟩

/-- `PartialOrder.add_dominance(higher, lower)`. -/
def PartialOrder.add_dominance (po : PartialOrder) (higher lower : String) :
    PartialOrder :=
  ⟨po.constraints, po.edges ++ [(higher, lower)]⟩

/-- The set `self._dominance[a]` of direct subordinates of `a`. -/
def succs (E : List (String × String)) (a : String) : List String :=
  (E.filter (fun p => p.1 = a)).map (fun p => p.2)

/-- The direct-dominance relation of an edge list. -/
def edgeRel (E : List (String × String)) : String → String → Prop :=
  fun a b => (a, b) ∈ E

/-- One `for intermediate in self._dominance[c1]` loop of
`PartialOrder.dominates`: try `g` on each element, returning at the first
`true`; `none` (diverging recursive call) aborts the whole loop. -/
def domStep (g : String → Option Bool) : List String → Option Bool
  | [] => some false
  | i :: rest =>
    match g i with
    | none => none
    | some true => some true
    | some false => domStep g rest

/-- Fuel-indexed embedding of the recursive `PartialOrder.dominates(c1, c2)`:
`some r` means the Python recursion returns `r` within the given recursion
depth, `none` that the depth is exhausted (possible divergence). -/
def dominatesF (E : List (String × String)) : Nat → String → String → Option Bool
  | 0, _, _ => none
  | fuel + 1, a, b =>
    if (a, b) ∈ E then some true
    else domStep (fun i => dominatesF E fuel i b) (succs E a)

/-- A recursion-depth budget provably sufficient on acyclic edge lists:
the recursion only ever visits pairwise-distinct vertices of `E`. -/
def defaultFuel (E : List (String × String)) : Nat :=
  2 * E.length + 2

/-- `PartialOrder.dominates` as a total Boolean function; on acyclic edge
lists this equals the value the Python recursion computes (proved below). -/
def dominatesB (E : List (String × String)) (a b : String) : Bool :=
  (dominatesF E (defaultFuel E) a b).getD false

/-- `PartialOrder.dominates(c1, c2)`. -/
def PartialOrder.dominates (po : PartialOrder) (a b : String) : Bool :=
  dominatesB po.edges a b

/-- Acyclicity of the direct-dominance relation: no constraint transitively
dominates itself. -/
def Acyclic (E : List (String × String)) : Prop :=
  ∀ c, ¬ Relation.TransGen (edgeRel E) c c

theorem mem_succs {E : List (String × String)} {a i : String} :
    i ∈ succs E a ↔ (a, i) ∈ E := by
  unfold succs
  simp only [List.mem_map, List.mem_filter, decide_eq_true_eq]
  constructor
  · rintro ⟨⟨x, y⟩, ⟨hmem, hx⟩, hy⟩
    subst hx; subst hy; exact hmem
  · intro h
    exact ⟨(a, i), ⟨h, rfl⟩, rfl⟩

theorem domStep_some_true {g : String → Option Bool} {l : List String}
    (h : domStep g l = some true) : ∃ i ∈ l, g i = some true := by
  induction l with
  | nil => simp [domStep] at h
  | cons i rest ih =>
    unfold domStep at h
    cases hg : g i with
    | none => simp [hg] at h
    | some r =>
      cases r with
      | true => exact ⟨i, List.mem_cons_self .., hg⟩
      | false =>
        simp only [hg] at h
        obtain ⟨j, hj, hgj⟩ := ih h
        exact ⟨j, List.mem_cons_of_mem _ hj, hgj⟩

theorem domStep_some_false {g : String → Option Bool} {l : List String}
    (h : domStep g l = some false) : ∀ i ∈ l, g i = some false := by
  induction l with
  | nil => simp
  | cons i rest ih =>
    unfold domStep at h
    cases hg : g i with
    | none => simp [hg] at h
    | some r =>
      cases r with
      | true => simp [hg] at h
      | false =>
        simp only [hg] at h
        intro j hj
        rcases List.mem_cons.mp hj with hj | hj
        · subst hj; exact hg
        · exact ih h j hj

theorem domStep_isSome {g : String → Option Bool} {l : List String}
    (h : ∀ i ∈ l, (g i).isSome) : (domStep g l).isSome := by
  induction l with
  | nil => simp [domStep]
  | cons i rest ih =>
    unfold domStep
    cases hg : g i with
    | none =>
      have := h i (List.mem_cons_self ..)
      simp [hg] at this
    | some r =>
      cases r with
      | true => simp
      | false => exact ih (fun j hj => h j (List.mem_cons_of_mem _ hj))

theorem domStep_mono {g g' : String → Option Bool} {l : List String}
    (h : ∀ i ∈ l, ∀ r, g i = some r → g' i = some r) :
    ∀ r, domStep g l = some r → domStep g' l = some r := by
  induction l with
  | nil => simp [domStep]
  | cons i rest ih =>
    intro r hr
    unfold domStep at hr ⊢
    cases hg : g i with
    | none => simp [hg] at hr
    | some ri =>
      rw [h i (List.mem_cons_self ..) ri hg]
      cases ri with
      | true => simpa [hg] using hr
      | false =>
        simp only [hg] at hr
        exact ih (fun j hj => h j (List.mem_cons_of_mem _ hj)) r hr

theorem dominatesF_mono {E : List (String × String)} :
    ∀ {fuel fuel' : Nat}, fuel ≤ fuel' → ∀ {a b : String} {r : Bool},
      dominatesF E fuel a b = some r → dominatesF E fuel' a b = some r := by
  intro fuel
  induction fuel with
  | zero => intro fuel' _ a b r h; simp [dominatesF] at h
  | succ n ih =>
    intro fuel' hle a b r h
    obtain ⟨m, rfl⟩ : ∃ m, fuel' = m + 1 :=
      ⟨fuel' - 1, by omega⟩
    unfold dominatesF at h ⊢
    by_cases hab : (a, b) ∈ E
    · simpa [hab] using h
    · simp only [hab, if_false] at h ⊢
      exact domStep_mono (fun i _ r' h' => ih (by omega) h') r h

theorem dominatesF_sound {E : List (String × String)} :
    ∀ {fuel : Nat} {a b : String}, dominatesF E fuel a b = some true →
      Relation.TransGen (edgeRel E) a b := by
  intro fuel
  induction fuel with
  | zero => intro a b h; simp [dominatesF] at h
  | succ n ih =>
    intro a b h
    unfold dominatesF at h
    by_cases hab : (a, b) ∈ E
    · exact Relation.TransGen.single hab
    · simp only [hab, if_false] at h
      obtain ⟨i, hi, hgi⟩ := domStep_some_true h
      exact Relation.TransGen.head (mem_succs.mp hi) (ih hgi)

theorem dominatesF_complete {E : List (String × String)} :
    ∀ {fuel : Nat} {a b : String}, Relation.TransGen (edgeRel E) a b →
      dominatesF E fuel a b ≠ some false := by
  intro fuel
  induction fuel with
  | zero => intro a b _ h; simp [dominatesF] at h
  | succ n ih =>
    intro a b htg h
    unfold dominatesF at h
    by_cases hab : (a, b) ∈ E
    · simp [hab] at h
    · simp only [hab, if_false] at h
      obtain ⟨c, hac, hcb⟩ := Relation.TransGen.head'_iff.mp htg
      rcases Relation.reflTransGen_iff_eq_or_transGen.mp hcb with rfl | htcb
      · exact hab hac
      · exact ih htcb (domStep_some_false h c (mem_succs.mpr hac))

/-- The set of vertices the `dominates` recursion can visit from `a`. -/
theorem dominatesF_isSome_of_fuel {E : List (String × String)}
    (hacy : Acyclic E) :
    ∀ (fuel : Nat) (a b : String),
      {c | Relation.ReflTransGen (edgeRel E) a c}.ncard < fuel →
      (dominatesF E fuel a b).isSome := by
  classical
  have hfin : ∀ a : String, {c | Relation.ReflTransGen (edgeRel E) a c}.Finite := by
    intro a
    apply Set.Finite.subset
      (Set.Finite.insert a (Set.Finite.image Prod.snd (List.finite_toSet E)))
    intro c hc
    rcases (Relation.reflTransGen_iff_eq_or_transGen.mp hc) with rfl | htg
    · exact Set.mem_insert _ _
    · rcases Relation.TransGen.tail'_iff.mp htg with ⟨d, _, hdc⟩
      exact Set.mem_insert_of_mem _ ⟨(d, c), hdc, rfl⟩
  intro fuel
  induction fuel with
  | zero => intro a b h; omega
  | succ n ih =>
    intro a b hcard
    unfold dominatesF
    by_cases hab : (a, b) ∈ E
    · simp [hab]
    · simp only [hab, if_false]
      apply domStep_isSome
      intro i hi
      apply ih
      have hedge : edgeRel E a i := mem_succs.mp hi
      have hsub : {c | Relation.ReflTransGen (edgeRel E) i c} ⊆
          {c | Relation.ReflTransGen (edgeRel E) a c} \ {a} := by
        intro c hc
        refine ⟨Relation.ReflTransGen.head hedge hc, ?_⟩
        intro hcmem
        rw [Set.mem_singleton_iff] at hcmem
        rw [hcmem] at hc
        exact hacy a (Relation.TransGen.head' hedge hc)
      have hlt : ({c | Relation.ReflTransGen (edgeRel E) a c} \ {a}).ncard <
          {c | Relation.ReflTransGen (edgeRel E) a c}.ncard := by
        apply Set.ncard_lt_ncard _ (hfin a)
        constructor
        · exact Set.diff_subset
        · intro hsup
          have : a ∈ {c | Relation.ReflTransGen (edgeRel E) a c} \ {a} :=
            hsup (by exact Relation.ReflTransGen.refl)
          simp at this
      have hle := Set.ncard_le_ncard hsub ((hfin a).subset Set.diff_subset)
      omega

theorem reach_ncard_le {E : List (String × String)} (a : String) :
    {c | Relation.ReflTransGen (edgeRel E) a c}.ncard < defaultFuel E := by
  classical
  have hsub : {c | Relation.ReflTransGen (edgeRel E) a c} ⊆
      insert a (Prod.snd '' {p | p ∈ E}) := by
    intro c hc
    rcases (Relation.reflTransGen_iff_eq_or_transGen.mp hc) with rfl | htg
    · exact Set.mem_insert _ _
    · rcases Relation.TransGen.tail'_iff.mp htg with ⟨d, _, hdc⟩
      exact Set.mem_insert_of_mem _ ⟨(d, c), hdc, rfl⟩
  have hfin : (insert a (Prod.snd '' {p | p ∈ E})).Finite :=
    Set.Finite.insert a (Set.Finite.image Prod.snd (List.finite_toSet E))
  have h1 := Set.ncard_le_ncard hsub hfin
  have h2 : (insert a (Prod.snd '' {p | p ∈ E})).ncard ≤
      (Prod.snd '' {p | p ∈ E}).ncard + 1 :=
    Set.ncard_insert_le _ _
  have h3 : (Prod.snd '' {p | p ∈ E}).ncard ≤ {p | p ∈ E}.ncard :=
    Set.ncard_image_le (List.finite_toSet E)
  have h4 : {p : String × String | p ∈ E}.ncard ≤ E.length := by
    have hset : {p : String × String | p ∈ E} = ↑E.toFinset := by
      ext p; simp
    rw [hset, Set.ncard_coe_Finset]
    exact List.toFinset_card_le E
  unfold defaultFuel
  omega

theorem dominatesF_total {E : List (String × String)} (hacy : Acyclic E)
    (a b : String) : (dominatesF E (defaultFuel E) a b).isSome :=
  dominatesF_isSome_of_fuel hacy _ a b (reach_ncard_le a)

/-- On an acyclic edge list the fuelled recursion is stable at
`defaultFuel`: more fuel never changes the answer. -/
theorem dominatesF_stable {E : List (String × String)} (hacy : Acyclic E)
    (a b : String) {fuel : Nat} (hfuel : defaultFuel E ≤ fuel) :
    dominatesF E fuel a b = dominatesF E (defaultFuel E) a b := by
  obtain ⟨r, hr⟩ := Option.isSome_iff_exists.mp (dominatesF_total hacy a b)
  rw [hr, dominatesF_mono hfuel hr]

/-- On an acyclic edge list `dominates` decides transitive reachability. -/
theorem dominatesB_iff {E : List (String × String)} (hacy : Acyclic E)
    (a b : String) :
    dominatesB E a b = true ↔ Relation.TransGen (edgeRel E) a b := by
  constructor
  · intro h
    unfold dominatesB at h
    cases hF : dominatesF E (defaultFuel E) a b with
    | none => simp [hF] at h
    | some r =>
      cases r with
      | true => exact dominatesF_sound hF
      | false => simp [hF] at h
  · intro htg
    obtain ⟨r, hr⟩ := Option.isSome_iff_exists.mp (dominatesF_total hacy a b)
    cases r with
    | true => unfold dominatesB; simp [hr]
    | false => exact absurd hr (dominatesF_complete htg)

/-- One-direction soundness needs no acyclicity: if the (fuelled)
recursion reports `true`, the target really is transitively reachable. -/
theorem dominatesB_sound {E : List (String × String)} {a b : String}
    (h : dominatesB E a b = true) : Relation.TransGen (edgeRel E) a b := by
  unfold dominatesB at h
  cases hF : dominatesF E (defaultFuel E) a b with
  | none => simp [hF] at h
  | some r =>
    cases r with
    | true => exact dominatesF_sound hF
    | false => simp [hF] at h

/-- One round of `PartialOrder.get_strata`: the constraints of `remaining`
that no other remaining constraint (transitively) dominates. -/
def strataStep (po : PartialOrder) (remaining : Finset String) : Finset String :=
  remaining.filter (fun c => ∀ o ∈ remaining, o ≠ c → po.dominates o c = false)

/-- Fuel-indexed embedding of the `while remaining:` loop of
`PartialOrder.get_strata`; the loop body removes a nonempty stratum per
round (or stops), so `remaining.card + 1` fuel reproduces the loop. -/
def getStrataAuxF (po : PartialOrder) : Nat → Finset String → List (Finset String)
  | 0, _ => []
  | fuel + 1, remaining =>
    if remaining = ∅ then []
    else if strataStep po remaining = ∅ then [remaining]
    else strataStep po remaining ::
      getStrataAuxF po fuel (remaining \ strataStep po remaining)

/-- `PartialOrder.get_strata()`. -/
def PartialOrder.get_strata (po : PartialOrder) : List (Finset String) :=
  getStrataAuxF po (po.constraints.toFinset.card + 1) po.constraints.toFinset

theorem strataStep_subset (po : PartialOrder) (r : Finset String) :
    strataStep po r ⊆ r :=
  Finset.filter_subset _ _

theorem sdiff_card_lt {r cur : Finset String} (hsub : cur ⊆ r)
    (hne : cur ≠ ∅) : (r \ cur).card < r.card := by
  obtain ⟨x, hx⟩ := Finset.nonempty_iff_ne_empty.mpr hne
  apply Finset.card_lt_card
  constructor
  · exact Finset.sdiff_subset
  · intro hsup
    have : x ∈ r \ cur := hsup (hsub hx)
    simp [hx] at this

theorem getStrataAuxF_union (po : PartialOrder) :
    ∀ (fuel : Nat) (r : Finset String), r.card < fuel →
      (getStrataAuxF po fuel r).foldr (· ∪ ·) ∅ = r := by
  intro fuel
  induction fuel with
  | zero => intro r h; omega
  | succ n ih =>
    intro r hcard
    unfold getStrataAuxF
    by_cases hr : r = ∅
    · simp [hr]
    · simp only [hr, if_false]
      by_cases hcur : strataStep po r = ∅
      · simp [hcur]
      · simp only [hcur, if_false, List.foldr_cons]
        rw [ih (r \ strataStep po r) ?_]
        · rw [Finset.union_sdiff_of_subset (strataStep_subset po r)]
        · have := sdiff_card_lt (strataStep_subset po r) hcur
          have hr1 : 1 ≤ r.card := by
            rcases Finset.card_eq_zero.mp.mt (by simpa [Finset.card_eq_zero] using hr) with h
            omega
          omega

theorem getStrataAuxF_mem_subset (po : PartialOrder) :
    ∀ (fuel : Nat) (r : Finset String), r.card < fuel →
      ∀ s ∈ getStrataAuxF po fuel r, s ⊆ r := by
  intro fuel
  induction fuel with
  | zero => intro r h; omega
  | succ n ih =>
    intro r hcard s hs
    unfold getStrataAuxF at hs
    by_cases hr : r = ∅
    · simp [hr] at hs
    · simp only [hr, if_false] at hs
      by_cases hcur : strataStep po r = ∅
      · simp only [hcur, if_true, List.mem_singleton] at hs
        subst hs; exact Finset.Subset.refl _
      · simp only [hcur, if_false, List.mem_cons] at hs
        rcases hs with rfl | hs
        · exact strataStep_subset po r
        · have hlt := sdiff_card_lt (strataStep_subset po r) hcur
          exact le_trans (ih (r \ strataStep po r) (by omega) s hs)
            Finset.sdiff_subset

theorem getStrataAuxF_countP_zero (po : PartialOrder) {c : String}
    (fuel : Nat) (r : Finset String) (hcard : r.card < fuel) (hc : c ∉ r) :
    (getStrataAuxF po fuel r).countP (fun s => decide (c ∈ s)) = 0 := by
  rw [List.countP_eq_zero]
  intro s hs
  have := getStrataAuxF_mem_subset po fuel r hcard s hs
  simp only [decide_eq_true_eq]
  exact fun hmem => hc (this hmem)

theorem getStrataAuxF_countP_one (po : PartialOrder) {c : String} :
    ∀ (fuel : Nat) (r : Finset String), r.card < fuel → c ∈ r →
      (getStrataAuxF po fuel r).countP (fun s => decide (c ∈ s)) = 1 := by
  intro fuel
  induction fuel with
  | zero => intro r h; omega
  | succ n ih =>
    intro r hcard hc
    unfold getStrataAuxF
    have hr : r ≠ ∅ := Finset.nonempty_iff_ne_empty.mp ⟨c, hc⟩
    simp only [hr, if_false]
    by_cases hcur : strataStep po r = ∅
    · simp [hcur, List.countP_cons, hc]
    · simp only [hcur, if_false, List.countP_cons]
      have hlt := sdiff_card_lt (strataStep_subset po r) hcur
      by_cases hmem : c ∈ strataStep po r
      · rw [getStrataAuxF_countP_zero po n (r \ strataStep po r) (by omega)
          (by simp [hmem])]
        simp [hmem]
      · rw [ih (r \ strataStep po r) (by omega) (by simp [hc, hmem])]
        simp [hmem]

theorem mem_strataStep_iff {po : PartialOrder} {w : String → ℚ}
    (H : ∀ o c, o ∈ po.constraints.toFinset → c ∈ po.constraints.toFinset →
      (po.dominates o c = true ↔ w c < w o))
    {r : Finset String} (hr : r ⊆ po.constraints.toFinset) {a : String}
    (ha : a ∈ r) : a ∈ strataStep po r ↔ ∀ o ∈ r, ¬ (w a < w o) := by
  unfold strataStep
  rw [Finset.mem_filter]
  constructor
  · rintro ⟨-, h⟩ o ho hlt
    have hne : o ≠ a := fun he => by rw [he] at hlt; exact lt_irrefl _ hlt
    have hdom := (H o a (hr ho) (hr ha)).mpr hlt
    rw [h o ho hne] at hdom
    exact Bool.false_ne_true hdom
  · intro h
    refine ⟨ha, fun o ho hne => ?_⟩
    cases hdom : po.dominates o a with
    | false => rfl
    | true => exact absurd ((H o a (hr ho) (hr ha)).mp hdom) (h o ho)

/-- Constraints with equal potential enter or leave each stratum round
together, when (transitive) dominance coincides with strict greater
potential on the constraint set. -/
theorem getStrataAuxF_same_weight {po : PartialOrder} {w : String → ℚ}
    (H : ∀ o c, o ∈ po.constraints.toFinset → c ∈ po.constraints.toFinset →
      (po.dominates o c = true ↔ w c < w o)) :
    ∀ (fuel : Nat) (r : Finset String), r.card < fuel →
      r ⊆ po.constraints.toFinset → ∀ {a b : String}, a ∈ r → b ∈ r →
      w a = w b → ∀ s ∈ getStrataAuxF po fuel r, (a ∈ s ↔ b ∈ s) := by
  intro fuel
  induction fuel with
  | zero => intro r h; omega
  | succ n ih =>
    intro r hcard hsub a b ha hb hw s hs
    unfold getStrataAuxF at hs
    have hr : r ≠ ∅ := Finset.nonempty_iff_ne_empty.mp ⟨a, ha⟩
    simp only [hr, if_false] at hs
    have hkey : a ∈ strataStep po r ↔ b ∈ strataStep po r := by
      rw [mem_strataStep_iff H hsub ha, mem_strataStep_iff H hsub hb, hw]
    by_cases hcur : strataStep po r = ∅
    · simp only [hcur, if_true, List.mem_singleton] at hs
      subst hs
      simp [ha, hb]
    · simp only [hcur, if_false, List.mem_cons] at hs
      have hlt := sdiff_card_lt (strataStep_subset po r) hcur
      rcases hs with rfl | hs
      · exact hkey
      · by_cases hac : a ∈ strataStep po r
        · have hbc := hkey.mp hac
          have hsubs := getStrataAuxF_mem_subset po n (r \ strataStep po r)
            (by omega) s hs
          constructor
          · intro hmem
            exact absurd (Finset.mem_sdiff.mp (hsubs hmem)).2 (fun h => h hac)
          · intro hmem
            exact absurd (Finset.mem_sdiff.mp (hsubs hmem)).2 (fun h => h hbc)
        · have hbc : b ∉ strataStep po r := fun h => hac (hkey.mpr h)
          exact ih (r \ strataStep po r) (by omega)
            (le_trans Finset.sdiff_subset hsub)
            (Finset.mem_sdiff.mpr ⟨ha, hac⟩) (Finset.mem_sdiff.mpr ⟨hb, hbc⟩)
            hw s hs

/-- One insertion step of a stable descending sort by key `w`: the
embedding of Python `sorted(constraints, key=..., reverse=True)`.  Only
the pairwise-descending order and the membership of the result matter to
any theorem below (Python's sort is stable; ties never produce edges). -/
def insertDesc (w : String → ℚ) (x : String) : List String → List String
  | [] => [x]
  | y :: ys => if w y < w x then x :: y :: ys else y :: insertDesc w x ys

/-- Descending insertion sort by key `w`. -/
def sortDesc (w : String → ℚ) : List String → List String
  | [] => []
  | x :: xs => insertDesc w x (sortDesc w xs)

theorem mem_insertDesc {w : String → ℚ} {x z : String} :
    ∀ {l : List String}, z ∈ insertDesc w x l ↔ z = x ∨ z ∈ l := by
  intro l
  induction l with
  | nil => simp [insertDesc]
  | cons y ys ih =>
    unfold insertDesc
    by_cases h : w y < w x
    · simp [h]
    · simp only [h, if_false, List.mem_cons, ih]
      tauto

theorem mem_sortDesc {w : String → ℚ} {z : String} :
    ∀ {l : List String}, z ∈ sortDesc w l ↔ z ∈ l := by
  intro l
  induction l with
  | nil => simp [sortDesc]
  | cons y ys ih =>
    unfold sortDesc
    rw [mem_insertDesc]
    simp [ih]

theorem pairwise_insertDesc {w : String → ℚ} {x : String} :
    ∀ {l : List String}, l.Pairwise (fun a b => w b ≤ w a) →
      (insertDesc w x l).Pairwise (fun a b => w b ≤ w a) := by
  intro l
  induction l with
  | nil => simp [insertDesc]
  | cons y ys ih =>
    intro hp
    rw [List.pairwise_cons] at hp
    unfold insertDesc
    by_cases h : w y < w x
    · rw [if_pos h]
      refine List.Pairwise.cons ?_ (List.Pairwise.cons hp.1 hp.2)
      intro z hz
      rcases List.mem_cons.mp hz with rfl | hz
      · exact le_of_lt h
      · exact le_trans (hp.1 z hz) (le_of_lt h)
    · rw [if_neg h]
      refine List.Pairwise.cons ?_ (ih hp.2)
      intro z hz
      rcases mem_insertDesc.mp hz with rfl | hz
      · exact le_of_not_lt h
      · exact hp.1 z hz

theorem pairwise_sortDesc (w : String → ℚ) :
    ∀ (l : List String), (sortDesc w l).Pairwise (fun a b => w b ≤ w a) := by
  intro l
  induction l with
  | nil => simp [sortDesc]
  | cons y ys ih => exact pairwise_insertDesc ih

/-- All ordered pairs `(l[i], l[j])` with `i < j`: the pairs visited by the
nested `for i, c1 in enumerate(sorted_constraints)` /
`for c2 in sorted_constraints[i+1:]` loops of the three
weights-to-partial-order conversions. -/
def weightPairs : List String → List (String × String)
  | [] => []
  | c :: rest => rest.map (fun d => (c, d)) ++ weightPairs rest

theorem weightPairs_rel {R : String → String → Prop} :
    ∀ {l : List String}, l.Pairwise R → ∀ {a b : String},
      (a, b) ∈ weightPairs l → R a b := by
  intro l
  induction l with
  | nil => simp [weightPairs]
  | cons c rest ih =>
    intro hp a b hm
    rw [List.pairwise_cons] at hp
    unfold weightPairs at hm
    rcases List.mem_append.mp hm with hm | hm
    · obtain ⟨d, hd, heq⟩ := List.mem_map.mp hm
      have h1 : c = a := congrArg Prod.fst heq
      have h2 : d = b := congrArg Prod.snd heq
      subst h1; subst h2
      exact hp.1 _ hd
    · exact ih hp.2 hm

theorem weightPairs_mem_of_gt {w : String → ℚ} :
    ∀ {l : List String}, l.Pairwise (fun a b => w b ≤ w a) →
      ∀ {a b : String}, a ∈ l → b ∈ l → w b < w a → (a, b) ∈ weightPairs l := by
  intro l
  induction l with
  | nil => simp
  | cons c rest ih =>
    intro hp a b ha hb hw
    rw [List.pairwise_cons] at hp
    unfold weightPairs
    rw [List.mem_append]
    rcases List.mem_cons.mp ha with ha1 | ha2
    · left
      have hb' : b ∈ rest := by
        rcases List.mem_cons.mp hb with hb1 | hb2
        · rw [ha1, hb1] at hw
          exact absurd hw (lt_irrefl _)
        · exact hb2
      rw [ha1]
      exact List.mem_map.mpr ⟨b, hb', rfl⟩
    · right
      have hb' : b ∈ rest := by
        rcases List.mem_cons.mp hb with hb1 | hb2
        · rw [hb1] at hw
          exact absurd hw (not_lt_of_le (hp.1 a ha2))
        · exact hb2
      exact ih hp.2 ha2 hb' hw

/-- `GLALearner._rankings_to_partial_order`: sort the constraints by
ranking value descending and add a dominance edge for every enumerated
pair with strictly greater value. -/
def GLALearner.rankings_to_partial_order (constraints : List String)
    (rv : String → ℚ) : PartialOrder :=
  ⟨constraints,
    (weightPairs (sortDesc rv constraints)).filter
      (fun p => rv p.2 < rv p.1)⟩

/-- `MaxEntLearner._weights_to_partial_order`: identical construction to
the GLA one, over the learned weights. -/
def MaxEntLearner.weights_to_partial_order (constraints : List String)
    (w : String → ℚ) : PartialOrder :=
  ⟨constraints,
    (weightPairs (sortDesc w constraints)).filter
      (fun p => w p.2 < w p.1)⟩

/-- The `dict.get(name, 0.0)` lookup into a weight dictionary whose keys
are the declared constraint names. -/
def wget (decl : List String) (w : String → ℚ) (name : String) : ℚ :=
  if name ∈ decl then w name else 0

/-- `HGLearner._weights_to_partial_order`: sort by weight (via
`weights.get(name, 0.0)`) descending and add an edge for every enumerated
pair whose weight difference exceeds `epsilon = 0.01`. -/
def HGLearner.weights_to_partial_order (decl : List String)
    (w : String → ℚ) : PartialOrder :=
  ⟨decl,
    (weightPairs (sortDesc (wget decl w) decl)).filter
      (fun p => 1 / 100 < |wget decl w p.1 - wget decl w p.2|)⟩

/-- `RCDLearner._get_winner_loser_pairs`: all (optimal, non-optimal) pairs
of examples sharing an input form. -/
def RCDLearner.get_winner_loser_pairs (g : Grammar) : List (Example × Example) :=
  (g.examples.filter (fun w => w.optimal)).flatMap
    (fun w => (g.examples.filter
      (fun l => decide (l.input_form = w.input_form) && !l.optimal)).map
      (fun l => (w, l)))

/-- `RCDLearner._can_be_top`: the constraint never assigns a winner
strictly more violations than its loser. -/
def RCDLearner.can_be_top (constraint : String)
    (pairs : List (Example × Example)) : Bool :=
  pairs.all (fun wl =>
    decide (vget wl.1.violations constraint ≤ vget wl.2.violations constraint))

/-- `RCDLearner._pair_satisfied`: some constraint of the stratum strictly
prefers the winner. -/
def RCDLearner.pair_satisfied (wl : Example × Example)
    (stratum : List String) : Bool :=
  decide (∃ c ∈ stratum,
    vget wl.1.violations c < vget wl.2.violations c)

/-- One round of the RCD `while unranked:` loop: the safe constraints, or
(ranking conflict) all remaining constraints.  Python's `unranked` is a
set; it is embedded as a duplicate-free list, with list order standing in
for the unspecified set-iteration order. -/
def RCDLearner.nextStratum (pairs : List (Example × Example))
    (unranked : List String) : List String :=
  if unranked.filter (fun c => RCDLearner.can_be_top c pairs) = [] then unranked
  else unranked.filter (fun c => RCDLearner.can_be_top c pairs)

/-- Fuel-indexed embedding of the RCD stratification loop; every round
removes a nonempty stratum, so `unranked.length + 1` fuel reproduces
it. -/
def RCDLearner.buildStrata :
    Nat → List (Example × Example) → List String → List (List String)
  | 0, _, _ => []
  | fuel + 1, pairs, unranked =>
    if unranked = [] then []
    else RCDLearner.nextStratum pairs unranked ::
      RCDLearner.buildStrata fuel
        (pairs.filter
          (fun wl => !RCDLearner.pair_satisfied wl
            (RCDLearner.nextStratum pairs unranked)))
        (unranked.filter
          (fun c => !decide (c ∈ RCDLearner.nextStratum pairs unranked)))

/-- The final edge materialization of `RCDLearner.learn`: every constraint
of an earlier stratum dominates every constraint of every later
stratum. -/
def strataEdges : List (List String) → List (String × String)
  | [] => []
  | s :: rest =>
    (rest.flatMap (fun lower =>
      s.flatMap (fun h => lower.map (fun l => (h, l))))) ++
    strataEdges rest

/-- The stratification computed inside `RCDLearner.learn` (the
`set(self.grammar.constraints)` is the duplicate-free constraint list). -/
def rcdStrata (g : Grammar) : List (List String) :=
  RCDLearner.buildStrata (g.constraints.dedup.length + 1)
    (RCDLearner.get_winner_loser_pairs g) g.constraints.dedup

/-- `RCDLearner.learn`. -/
def RCDLearner.learn (g : Grammar) : PartialOrder :=
  ⟨g.constraints, strataEdges (rcdStrata g)⟩

theorem nextStratum_subset (pairs : List (Example × Example))
    (unranked : List String) :
    ∀ c ∈ RCDLearner.nextStratum pairs unranked, c ∈ unranked := by
  unfold RCDLearner.nextStratum
  by_cases h : unranked.filter (fun c => RCDLearner.can_be_top c pairs) = []
  · rw [if_pos h]
    exact fun c hc => hc
  · rw [if_neg h]
    exact fun c hc => List.mem_of_mem_filter hc

/-- The strata produced by the RCD loop are pairwise disjoint. -/
theorem buildStrata_disjoint :
    ∀ (fuel : Nat) (pairs : List (Example × Example))
      (unranked : List String),
      (∀ s ∈ RCDLearner.buildStrata fuel pairs unranked,
        ∀ x ∈ s, x ∈ unranked) ∧
      (RCDLearner.buildStrata fuel pairs unranked).Pairwise
        (fun s t => ∀ x, x ∈ s → x ∉ t) := by
  intro fuel
  induction fuel with
  | zero => intro pairs unranked; simp [RCDLearner.buildStrata]
  | succ n ih =>
    intro pairs unranked
    unfold RCDLearner.buildStrata
    by_cases hu : unranked = []
    · simp [hu]
    · simp only [hu, if_false]
      obtain ⟨ihsub, ihdisj⟩ := ih
        (pairs.filter (fun wl => !RCDLearner.pair_satisfied wl
          (RCDLearner.nextStratum pairs unranked)))
        (unranked.filter
          (fun c => !decide (c ∈ RCDLearner.nextStratum pairs unranked)))
      constructor
      · intro s hs x hx
        rcases List.mem_cons.mp hs with rfl | hs
        · exact nextStratum_subset pairs unranked x hx
        · exact List.mem_of_mem_filter (ihsub s hs x hx)
      · refine List.Pairwise.cons ?_ ihdisj
        intro t ht x hx hxt
        have hmem := ihsub t ht x hxt
        rw [List.mem_filter] at hmem
        simp only [Bool.not_eq_true', decide_eq_false_iff_not] at hmem
        exact hmem.2 hx

/-- Index of the first stratum containing `c` (list length if none). -/
def stratumIdx (L : List (List String)) (c : String) : Nat :=
  L.findIdx (fun s => decide (c ∈ s))

theorem strataEdges_mem {L : List (List String)} {h l : String} :
    (h, l) ∈ strataEdges L →
      (∃ s ∈ L, h ∈ s) ∧ (∃ t ∈ L, l ∈ t) := by
  induction L with
  | nil => simp [strataEdges]
  | cons s rest ih =>
    intro hm
    unfold strataEdges at hm
    rcases List.mem_append.mp hm with hm | hm
    · obtain ⟨lower, hlow, hm2⟩ := List.mem_flatMap.mp hm
      obtain ⟨h', hh', hm3⟩ := List.mem_flatMap.mp hm2
      obtain ⟨l', hl', heq⟩ := List.mem_map.mp hm3
      cases heq
      exact ⟨⟨s, List.mem_cons_self .., hh'⟩,
        ⟨lower, List.mem_cons_of_mem _ hlow, hl'⟩⟩
    · obtain ⟨h1, h2⟩ := ih hm
      exact ⟨⟨h1.choose, List.mem_cons_of_mem _ h1.choose_spec.1,
          h1.choose_spec.2⟩,
        ⟨h2.choose, List.mem_cons_of_mem _ h2.choose_spec.1,
          h2.choose_spec.2⟩⟩

theorem strataEdges_idx_lt {L : List (List String)}
    (hdisj : L.Pairwise (fun s t => ∀ x, x ∈ s → x ∉ t)) {h l : String}
    (hm : (h, l) ∈ strataEdges L) :
    stratumIdx L h < stratumIdx L l := by
  induction L with
  | nil => simp [strataEdges] at hm
  | cons s rest ih =>
    rw [List.pairwise_cons] at hdisj
    unfold strataEdges at hm
    unfold stratumIdx
    rcases List.mem_append.mp hm with hm | hm
    · obtain ⟨lower, hlow, hm2⟩ := List.mem_flatMap.mp hm
      obtain ⟨h', hh', hm3⟩ := List.mem_flatMap.mp hm2
      obtain ⟨l', hl', heq⟩ := List.mem_map.mp hm3
      cases heq
      have hls : l ∉ s := fun hmem => hdisj.1 lower hlow l hmem hl'
      rw [List.findIdx_cons, List.findIdx_cons, decide_eq_true hh',
        decide_eq_false hls, cond_true, cond_false]
      omega
    · obtain ⟨⟨sh, hsh, hhsh⟩, ⟨tl, htl, hltl⟩⟩ := strataEdges_mem hm
      have hhs : h ∉ s := fun hmem => hdisj.1 sh hsh h hmem hhsh
      have hls : l ∉ s := fun hmem => hdisj.1 tl htl l hmem hltl
      rw [List.findIdx_cons, List.findIdx_cons, decide_eq_false hhs,
        decide_eq_false hls, cond_false, cond_false]
      have := ih hdisj.2 hm
      unfold stratumIdx at this
      omega

/-- The strict-partial-order facts claimed for learned rankings: dominance
is never mutual and never reflexive. -/
def StrictDominance (po : PartialOrder) : Prop :=
  (∀ a b, ¬ (po.dominates a b = true ∧ po.dominates b a = true)) ∧
  ∀ c, po.dominates c c = false

theorem strictDominance_of_decreasing (po : PartialOrder) {α : Type}
    [Preorder α] (w : String → α)
    (hdec : ∀ p ∈ po.edges, w p.2 < w p.1) : StrictDominance po := by
  have hmono : ∀ {x y : String},
      Relation.TransGen (edgeRel po.edges) x y → w y < w x := by
    intro x y hxy
    induction hxy with
    | single he => exact hdec _ he
    | tail _ he ihm => exact lt_trans (hdec _ he) ihm
  constructor
  · rintro a b ⟨h1, h2⟩
    exact lt_asymm (hmono (dominatesB_sound h1)) (hmono (dominatesB_sound h2))
  · intro c
    cases hd : PartialOrder.dominates po c c with
    | false => rfl
    | true => exact absurd (hmono (dominatesB_sound hd)) (lt_irrefl _)

/-- A strictly decreasing potential over the edges rules out cycles. -/
theorem acyclic_of_decreasing {E : List (String × String)} {α : Type}
    [Preorder α] (w : String → α) (h : ∀ p ∈ E, w p.2 < w p.1) :
    Acyclic E := by
  intro c hc
  have hmono : ∀ {x y : String}, Relation.TransGen (edgeRel E) x y →
      w y < w x := by
    intro x y hxy
    induction hxy with
    | single he => exact h _ he
    | tail _ he ih => exact lt_trans (h _ he) ih
  exact lt_irrefl _ (hmono hc)

theorem gla_conv_decreasing (cs : List String) (rv : String → ℚ) :
    ∀ p ∈ (GLALearner.rankings_to_partial_order cs rv).edges,
      rv p.2 < rv p.1 := by
  intro p hp
  unfold GLALearner.rankings_to_partial_order at hp
  exact of_decide_eq_true (List.mem_filter.mp hp).2

theorem maxent_conv_decreasing (cs : List String) (w : String → ℚ) :
    ∀ p ∈ (MaxEntLearner.weights_to_partial_order cs w).edges,
      w p.2 < w p.1 := by
  intro p hp
  unfold MaxEntLearner.weights_to_partial_order at hp
  exact of_decide_eq_true (List.mem_filter.mp hp).2

theorem hg_conv_decreasing (decl : List String) (w : String → ℚ) :
    ∀ p ∈ (HGLearner.weights_to_partial_order decl w).edges,
      wget decl w p.2 < wget decl w p.1 := by
  intro p hp
  unfold HGLearner.weights_to_partial_order at hp
  have hmem := (List.mem_filter.mp hp).1
  have hcond : 1 / 100 < |wget decl w p.1 - wget decl w p.2| :=
    of_decide_eq_true (List.mem_filter.mp hp).2
  have hle : wget decl w p.2 ≤ wget decl w p.1 := by
    have hpw := pairwise_sortDesc (wget decl w) decl
    have := weightPairs_rel hpw (a := p.1) (b := p.2) (by simpa using hmem)
    exact this
  rw [abs_of_nonneg (sub_nonneg.mpr hle)] at hcond
  linarith

theorem rcd_edges_decreasing (g : Grammar) :
    ∀ p ∈ (RCDLearner.learn g).edges,
      (rcdStrata g).length - stratumIdx (rcdStrata g) p.2 <
      (rcdStrata g).length - stratumIdx (rcdStrata g) p.1 := by
  intro p hp
  unfold RCDLearner.learn at hp
  obtain ⟨-, hdisj⟩ := buildStrata_disjoint (g.constraints.dedup.length + 1)
    (RCDLearner.get_winner_loser_pairs g) g.constraints.dedup
  have hdisj' : (rcdStrata g).Pairwise (fun s t => ∀ x, x ∈ s → x ∉ t) := hdisj
  have hidx := strataEdges_idx_lt hdisj' (h := p.1) (l := p.2) (by simpa using hp)
  have hle : stratumIdx (rcdStrata g) p.2 ≤ (rcdStrata g).length :=
    List.findIdx_le_length _
  omega

/-- The key set `set(optV.keys()) | set(loseV.keys())` iterated by
`OTLearner._find_crucial_constraints`; Python set iteration order is
unspecified, and first-occurrence order of the keys is used here. -/
def allConstraints (optV loseV : List (String × Nat)) : List String :=
  (optV.map Prod.fst ++ loseV.map Prod.fst).dedup

/-- `OTLearner._find_crucial_constraints`: pairs each loser-preferred
constraint (loser has strictly more violations) with the list of
winner-preferred constraints, skipping entries with an empty list. -/
def OTLearner.find_crucial_constraints (optV loseV : List (String × Nat)) :
    List (String × List String) :=
  (allConstraints optV loseV).filterMap (fun c =>
    if vget optV c < vget loseV c then
      if (allConstraints optV loseV).filter
          (fun o => decide (vget loseV o < vget optV o)) = [] then none
      else some (c, (allConstraints optV loseV).filter
          (fun o => decide (vget loseV o < vget optV o)))
    else none)

/-- The innermost loop body of `OTLearner.learn`: resolve one lower name
(`get_constraint` drops unknown names) and add `higher >> lower` unless
`lower` already dominates `higher`. -/
def OTLearner.addLower (g : Grammar) (hc : String) (po2 : PartialOrder)
    (lname : String) : PartialOrder :=
  match g.get_constraint lname with
  | none => po2
  | some lc =>
    if po2.dominates lc hc = true then po2
    else po2.add_dominance hc lc

/-- The loop body over one crucial `(higher, lowers)` entry of
`OTLearner.learn`. -/
def OTLearner.addCrucial (g : Grammar) (po1 : PartialOrder)
    (cl : String × List String) : PartialOrder :=
  match g.get_constraint cl.1 with
  | none => po1
  | some hc => cl.2.foldl (OTLearner.addLower g hc) po1

/-- The edge-adding work of `OTLearner.learn` for one winner/loser pair. -/
def OTLearner.processPair (g : Grammar) (po : PartialOrder)
    (optV loseV : List (String × Nat)) : PartialOrder :=
  (OTLearner.find_crucial_constraints optV loseV).foldl
    (OTLearner.addCrucial g) po

/-- The inner `for other_example in self.grammar.examples` loop body of
`OTLearner.learn`. -/
def OTLearner.pairStep (g : Grammar) (ex : Example) (po1 : PartialOrder)
    (other : Example) : PartialOrder :=
  if other.input_form = ex.input_form ∧ other.optimal = false then
    OTLearner.processPair g po1 ex.violations other.violations
  else po1

/-- The outer `for example in self.grammar.examples` loop body of
`OTLearner.learn` (the `continue` on non-optimal examples). -/
def OTLearner.winnerStep (g : Grammar) (po : PartialOrder) (ex : Example) :
    PartialOrder :=
  if ex.optimal then g.examples.foldl (OTLearner.pairStep g ex) po else po

/-- `OTLearner.learn` (basic constraint demotion): a single pass pairing
every optimal example with every non-optimal example of the same input
form — there is no iteration to convergence. -/
def OTLearner.learn (g : Grammar) : PartialOrder :=
  g.examples.foldl (OTLearner.winnerStep g) (PartialOrder.init g.constraints)

/-- `HGLearner._compute_harmony`: negative weighted sum over the
violation entries, looking weights up with `weights.get(name, 0.0)`. -/
def HGLearner.compute_harmony (decl : List String) (w : String → ℚ)
    (violations : List (String × Nat)) : ℚ :=
  violations.foldl (fun h p => h - wget decl w p.1 * (p.2 : ℚ)) 0

/-- The perceptron update of `HGLearner.learn`: every declared
constraint's weight moves by `(loser violations − winner violations) ×
learning_rate`. -/
def HGLearner.updateWeights (lr : ℚ) (decl : List String) (w : String → ℚ)
    (optV loseV : List (String × Nat)) : String → ℚ :=
  fun n =>
    if n ∈ decl then w n + ((vget loseV n : ℚ) - (vget optV n : ℚ)) * lr
    else w n

/-- One `for example in self.grammar.examples` pass of `HGLearner.learn`,
threading the mutable weights and the `updated` flag.  Note the Python
code computes the winner's harmony once per winner, before its inner
loser loop, and weight updates inside that loop do not refresh it. -/
def HGLearner.hgPass (lr : ℚ) (decl : List String) (examples : List Example)
    (w : String → ℚ) : (String → ℚ) × Bool :=
  examples.foldl (fun acc ex =>
    if ex.optimal then
      examples.foldl (fun acc2 other =>
        if other.input_form = ex.input_form ∧ other.optimal = false then
          if HGLearner.compute_harmony decl acc.1 ex.violations ≤
              HGLearner.compute_harmony decl acc2.1 other.violations then
            (HGLearner.updateWeights lr decl acc2.1 ex.violations
              other.violations, true)
          else acc2
        else acc2) acc
    else acc) (w, false)

/-- The `for iteration in range(max_iterations)` loop of
`HGLearner.learn`, stopping after the first pass with no update. -/
def HGLearner.hgLoop (lr : ℚ) (decl : List String)
    (examples : List Example) : Nat → (String → ℚ) → (String → ℚ)
  | 0, w => w
  | fuel + 1, w =>
    match HGLearner.hgPass lr decl examples w with
    | (w', true) => HGLearner.hgLoop lr decl examples fuel w'
    | (w', false) => w'

/-- The final weight table of `HGLearner.learn` (weights initialized to
zero, default `learning_rate = 0.1`, `max_iterations = 1000`). -/
def HGLearner.learnWeights (g : Grammar) : String → ℚ :=
  HGLearner.hgLoop (1 / 10) g.constraints g.examples 1000 (fun _ => 0)

/-- `HGLearner.learn` with the default parameters. -/
def HGLearner.learn (g : Grammar) : PartialOrder :=
  HGLearner.weights_to_partial_order g.constraints (HGLearner.learnWeights g)

/-- The `Learner` facade (`learner.py`): stores the grammar and the
selector lowered by `algorithm.lower()` (embedded as ASCII
`String.toLower`). -/
structure Learner where
  grammar : Grammar
  algorithm : String
deriving DecidableEq

/-- `Learner.__init__(grammar, algorithm)`. -/
def Learner.init (g : Grammar) (algorithm : String) : Learner :=
  ⟨g, algorithm.toLower⟩

/-- `Learner.train()`: dispatch on the stored selector; the `raise
ValueError(f"Unknown algorithm: ...")` branch is the error case. -/
def Learner.train (l : Learner) : Except String PartialOrder :=
  if l.algorithm = "ot" then Except.ok (OTLearner.learn l.grammar)
  else if l.algorithm = "hg" then Except.ok (HGLearner.learn l.grammar)
  else Except.error ("Unknown algorithm: " ++ l.algorithm)

theorem char_toLower_idem (c : Char) : c.toLower.toLower = c.toLower := by
  have hval : ∀ n : Nat, n.isValidChar → (Char.ofNat n).toNat = n := by
    intro n h
    unfold Char.ofNat
    rw [dif_pos h]
    rfl
  unfold Char.toLower
  by_cases h : c.toNat ≥ 65 ∧ c.toNat ≤ 90
  · rw [if_pos h]
    have hv : (c.toNat + 32).isValidChar := Or.inl (by omega)
    rw [hval _ hv]
    rw [if_neg (by omega)]
  · rw [if_neg h, if_neg h]

theorem string_toLower_idem (s : String) : s.toLower.toLower = s.toLower := by
  unfold String.toLower
  rw [String.map_eq, String.map_eq]
  simp only [List.map_map]
  congr 1
  apply List.map_congr_left
  intro c _
  exact char_toLower_idem c

/-- C8: for every `PartialOrder` whose direct-dominance relation is
acyclic, the recursive `dominates(a, b)` traversal terminates for all
constraints `a`, `b`: the fuelled recursion returns a value (`isSome`) at
the `defaultFuel` budget and is stable under any larger budget. -/
theorem claim_C8_dominates_terminates (po : PartialOrder)
    (hacy : Acyclic po.edges) (a b : String) :
    (dominatesF po.edges (defaultFuel po.edges) a b).isSome = true ∧
    ∀ fuel, defaultFuel po.edges ≤ fuel →
      dominatesF po.edges fuel a b =
        dominatesF po.edges (defaultFuel po.edges) a b :=
  ⟨dominatesF_total hacy a b, fun _ hfuel => dominatesF_stable hacy a b hfuel⟩

/-- Witness for C8 at a concrete acyclic order. -/
theorem claim_C8_witness :
    (dominatesF [("A", "B")] (defaultFuel [("A", "B")]) "A" "B").isSome = true ∧
    ∀ fuel, defaultFuel [("A", "B")] ≤ fuel →
      dominatesF [("A", "B")] fuel "A" "B" =
        dominatesF [("A", "B")] (defaultFuel [("A", "B")])  "A" "B" :=
  claim_C8_dominates_terminates ⟨["A", "B"], [("A", "B")]⟩
    (acyclic_of_decreasing (fun s => if s = "A" then (1 : Nat) else 0)
      (by decide)) "A" "B"

/-- C5: the dominance query is transitive over added edges: on any
`PartialOrder`, after `add_dominance(A, B)` and `add_dominance(B, C)`,
provided the resulting direct relation is acyclic (so the recursive query
terminates), `dominates(A, C)` returns `true`. -/
theorem claim_C5_dominates_transitive (po : PartialOrder) (A B C : String)
    (hacy : Acyclic ((po.add_dominance A B).add_dominance B C).edges) :
    ((po.add_dominance A B).add_dominance B C).dominates A C = true := by
  apply (dominatesB_iff hacy A C).mpr
  have hAB : (A, B) ∈ ((po.add_dominance A B).add_dominance B C).edges := by
    simp [PartialOrder.add_dominance]
  have hBC : (B, C) ∈ ((po.add_dominance A B).add_dominance B C).edges := by
    simp [PartialOrder.add_dominance]
  exact Relation.TransGen.head hAB (Relation.TransGen.single hBC)

/-- Witness for C5 at a concrete order. -/
theorem claim_C5_witness :
    (((PartialOrder.init ["A", "B", "C"]).add_dominance "A" "B").add_dominance
      "B" "C").dominates "A" "C" = true :=
  claim_C5_dominates_transitive (PartialOrder.init ["A", "B", "C"]) "A" "B" "C"
    (acyclic_of_decreasing
      (fun s => if s = "A" then (2 : Nat) else if s = "B" then 1 else 0)
      (by decide))

/-- C4: for every `PartialOrder` (with acyclic direct relation, so that
the `dominates` calls of `get_strata` terminate), `get_strata()` returns a
partition of the constraint set: every constraint the order was
constructed with lies in exactly one returned stratum, and the union of
the returned strata is the whole constraint set. -/
theorem claim_C4_get_strata_partition (po : PartialOrder)
    (_hacy : Acyclic po.edges) :
    (∀ c ∈ po.constraints,
      po.get_strata.countP (fun s => decide (c ∈ s)) = 1) ∧
    po.get_strata.foldr (fun s t => s ∪ t) ∅ = po.constraints.toFinset := by
  constructor
  · intro c hc
    exact getStrataAuxF_countP_one po (po.constraints.toFinset.card + 1)
      po.constraints.toFinset (Nat.lt_succ_self _) (List.mem_toFinset.mpr hc)
  · exact getStrataAuxF_union po (po.constraints.toFinset.card + 1)
      po.constraints.toFinset (Nat.lt_succ_self _)

/-- Witness for C4 at a concrete order. -/
theorem claim_C4_witness :
    (∀ c ∈ ["A", "B", "C"],
      (PartialOrder.mk ["A", "B", "C"] [("A", "B")]).get_strata.countP
        (fun s => decide (c ∈ s)) = 1) ∧
    (PartialOrder.mk ["A", "B", "C"] [("A", "B")]).get_strata.foldr
        (fun s t => s ∪ t) ∅ =
      (["A", "B", "C"] : List String).toFinset :=
  claim_C4_get_strata_partition ⟨["A", "B", "C"], [("A", "B")]⟩
    (acyclic_of_decreasing (fun s => if s = "A" then (1 : Nat) else 0)
      (by decide))

/-- C9: the partial orders produced by `RCDLearner.learn` and by the
rankings/weights-to-partial-order conversions of GLA, MaxEnt and HG (on
any ranking-value/weight table, hence for whatever table their `learn`
produced) are strict: dominance is never mutual between two constraints
and never reflexive. -/
theorem claim_C9_learned_orders_strict :
    (∀ g : Grammar, StrictDominance (RCDLearner.learn g)) ∧
    (∀ (cs : List String) (rv : String → ℚ),
      StrictDominance (GLALearner.rankings_to_partial_order cs rv)) ∧
    (∀ (cs : List String) (w : String → ℚ),
      StrictDominance (MaxEntLearner.weights_to_partial_order cs w)) ∧
    (∀ (decl : List String) (w : String → ℚ),
      StrictDominance (HGLearner.weights_to_partial_order decl w)) := by
  refine ⟨fun g => ?_, fun cs rv => ?_, fun cs w => ?_, fun decl w => ?_⟩
  · exact strictDominance_of_decreasing _
      (fun c => (rcdStrata g).length - stratumIdx (rcdStrata g) c)
      (rcd_edges_decreasing g)
  · exact strictDominance_of_decreasing _ rv (gla_conv_decreasing cs rv)
  · exact strictDominance_of_decreasing _ w (maxent_conv_decreasing cs w)
  · exact strictDominance_of_decreasing _ (wget decl w)
      (hg_conv_decreasing decl w)

theorem foldl_inv {α β : Type} {P : β → Prop} (f : β → α → β) :
    ∀ (l : List α) (init : β), P init →
      (∀ b a, a ∈ l → P b → P (f b a)) → P (l.foldl f init) := by
  intro l
  induction l with
  | nil => intro init h0 _; exact h0
  | cons y ys ih =>
    intro init h0 hstep
    exact ih (f init y) (hstep init y (List.mem_cons_self ..) h0)
      (fun b a ha => hstep b a (List.mem_cons_of_mem _ ha))

/-- A direct edge always makes the dominance query answer `true`
(first branch of the recursion, no acyclicity needed). -/
theorem dominatesB_of_mem {E : List (String × String)} {a b : String}
    (h : (a, b) ∈ E) : dominatesB E a b = true := by
  unfold dominatesB defaultFuel
  show (dominatesF E (2 * E.length + 1 + 1) a b).getD false = true
  unfold dominatesF
  rw [if_pos h]
  rfl

/-- Every weight `HGLearner.learn` can produce under the default
`learning_rate = 0.1` is an integer multiple of `1/10`: the weights start
at zero and each perceptron update adds an integer times the rate. -/
theorem hg_weights_multiple (g : Grammar) :
    ∀ n, ∃ k : ℤ, HGLearner.learnWeights g n = k * (1 / 10) := by
  have hupd : ∀ (w : String → ℚ) (optV loseV : List (String × Nat)),
      (∀ n, ∃ k : ℤ, w n = k * (1 / 10)) →
      ∀ n, ∃ k : ℤ,
        HGLearner.updateWeights (1 / 10) g.constraints w optV loseV n =
          k * (1 / 10) := by
    intro w optV loseV hw n
    obtain ⟨k, hk⟩ := hw n
    unfold HGLearner.updateWeights
    by_cases hm : n ∈ g.constraints
    · rw [if_pos hm]
      refine ⟨k + ((vget loseV n : ℤ) - (vget optV n : ℤ)), ?_⟩
      push_cast [hk]
      ring
    · rw [if_neg hm]
      exact ⟨k, hk⟩
  have hpass : ∀ (w : String → ℚ),
      (∀ n, ∃ k : ℤ, w n = k * (1 / 10)) →
      ∀ n, ∃ k : ℤ,
        (HGLearner.hgPass (1 / 10) g.constraints g.examples w).1 n =
          k * (1 / 10) := by
    intro w hw
    unfold HGLearner.hgPass
    refine foldl_inv
      (P := fun acc : (String → ℚ) × Bool =>
        ∀ n, ∃ k : ℤ, acc.1 n = k * (1 / 10)) _ _ _ hw ?_
    intro acc ex _ hacc
    by_cases hopt : ex.optimal = true
    · simp only [hopt, if_true]
      refine foldl_inv
        (P := fun acc2 : (String → ℚ) × Bool =>
          ∀ n, ∃ k : ℤ, acc2.1 n = k * (1 / 10)) _ _ _ hacc ?_
      intro acc2 other _ hacc2
      by_cases hc : other.input_form = ex.input_form ∧ other.optimal = false
      · simp only [hc, if_true]
        by_cases hh : HGLearner.compute_harmony g.constraints acc.1
            ex.violations ≤
          HGLearner.compute_harmony g.constraints acc2.1 other.violations
        · simp only [hh, if_true]
          exact hupd acc2.1 ex.violations other.violations hacc2
        · simp only [hh, if_false]
          exact hacc2
      · simp only [hc, if_false]
        exact hacc2
    · simp only [hopt, if_false]
      exact hacc
  have hloop : ∀ (fuel : Nat) (w : String → ℚ),
      (∀ n, ∃ k : ℤ, w n = k * (1 / 10)) →
      ∀ n, ∃ k : ℤ,
        HGLearner.hgLoop (1 / 10) g.constraints g.examples fuel w n =
          k * (1 / 10) := by
    intro fuel
    induction fuel with
    | zero => intro w hw; exact hw
    | succ m ih =>
      intro w hw
      unfold HGLearner.hgLoop
      cases hp : HGLearner.hgPass (1 / 10) g.constraints g.examples w with
      | mk w' upd =>
        have hw' := hpass w hw
        rw [hp] at hw'
        cases upd with
        | true => exact ih w' hw'
        | false => exact hw'
  exact hloop 1000 (fun _ => 0) (fun n => ⟨0, by norm_num⟩)

/-- Two rationals that are integer multiples of `1/10` and lie within
`1/100` of each other are equal. -/
theorem tenth_multiples_close_eq {x y : ℚ} (hx : ∃ k : ℤ, x = k * (1 / 10))
    (hy : ∃ k : ℤ, y = k * (1 / 10)) (hclose : |x - y| < 1 / 100) :
    x = y := by
  obtain ⟨k1, rfl⟩ := hx
  obtain ⟨k2, rfl⟩ := hy
  have habs : |((k1 - k2 : ℤ) : ℚ)| * (1 / 10) < 1 / 100 := by
    have : (k1 : ℚ) * (1 / 10) - (k2 : ℚ) * (1 / 10) =
        ((k1 - k2 : ℤ) : ℚ) * (1 / 10) := by push_cast; ring
    rw [this] at hclose
    rwa [abs_mul, abs_of_pos (by norm_num : (0 : ℚ) < 1 / 10)] at hclose
  have hlt1 : |((k1 - k2 : ℤ) : ℚ)| < 1 := by linarith
  have hz : |k1 - k2| < 1 := by
    rw [← Int.cast_abs] at hlt1
    exact_mod_cast hlt1
  have : k1 = k2 := by
    rcases abs_lt.mp hz with ⟨h1, h2⟩
    omega
  rw [this]

/-- On weight tables whose values are multiples of `1/10`, the HG
conversion's transitive dominance coincides with strictly greater
weight. -/
theorem hg_conv_dominates_iff (decl : List String) (w : String → ℚ)
    (hmult : ∀ n, ∃ k : ℤ, w n = k * (1 / 10)) (o c : String)
    (ho : o ∈ decl) (hc : c ∈ decl) :
    (HGLearner.weights_to_partial_order decl w).dominates o c = true ↔
      wget decl w c < wget decl w o := by
  have hmultw : ∀ n, ∃ k : ℤ, wget decl w n = k * (1 / 10) := by
    intro n
    unfold wget
    by_cases hm : n ∈ decl
    · rw [if_pos hm]; exact hmult n
    · rw [if_neg hm]; exact ⟨0, by norm_num⟩
  constructor
  · intro hdom
    have htg := dominatesB_sound hdom
    clear hdom hc
    induction htg with
    | single he => exact hg_conv_decreasing decl w _ he
    | tail _ he ih => exact lt_trans (hg_conv_decreasing decl w _ he) ih
  · intro hlt
    apply dominatesB_of_mem
    unfold HGLearner.weights_to_partial_order
    apply List.mem_filter.mpr
    constructor
    · exact weightPairs_mem_of_gt (pairwise_sortDesc (wget decl w) decl)
        (mem_sortDesc.mpr ho) (mem_sortDesc.mpr hc) hlt
    · apply decide_eq_true
      obtain ⟨k1, hk1⟩ := hmultw o
      obtain ⟨k2, hk2⟩ := hmultw c
      have hk : k2 < k1 := by
        by_contra hcon
        push_neg at hcon
        have : (k1 : ℚ) * (1 / 10) ≤ (k2 : ℚ) * (1 / 10) := by
          have : (k1 : ℚ) ≤ (k2 : ℚ) := by exact_mod_cast hcon
          linarith
        rw [← hk1, ← hk2] at this
        exact absurd hlt (not_lt_of_le this)
      have hge : wget decl w o - wget decl w c ≥ 1 / 10 := by
        rw [hk1, hk2]
        have h1 : (1 : ℤ) ≤ k1 - k2 := by omega
        have : (1 : ℚ) ≤ ((k1 - k2 : ℤ) : ℚ) := by exact_mod_cast h1
        push_cast at this ⊢
        nlinarith
      rw [abs_of_nonneg (by linarith : (0 : ℚ) ≤
        wget decl w o - wget decl w c)]
      linarith

/-- C2: since HG's default learning rate is `0.1`, any two constraints
whose final learned weights differ by less than the conversion epsilon
`0.01` in fact have equal weights, and the weights-to-partial-order
conversion together with `get_strata()` places them in the same
stratum. -/
theorem claim_C2_hg_epsilon_same_stratum (g : Grammar) (a b : String)
    (ha : a ∈ g.constraints) (hb : b ∈ g.constraints)
    (hdiff : |HGLearner.learnWeights g a - HGLearner.learnWeights g b| <
      1 / 100) :
    ∀ s ∈ (HGLearner.learn g).get_strata, (a ∈ s ↔ b ∈ s) := by
  intro s hs
  have hmult := hg_weights_multiple g
  have weq : HGLearner.learnWeights g a = HGLearner.learnWeights g b :=
    tenth_multiples_close_eq (hmult a) (hmult b) hdiff
  have hwget : wget g.constraints (HGLearner.learnWeights g) a =
      wget g.constraints (HGLearner.learnWeights g) b := by
    unfold wget
    rw [if_pos ha, if_pos hb]
    exact weq
  have H : ∀ o c, o ∈ (HGLearner.learn g).constraints.toFinset →
      c ∈ (HGLearner.learn g).constraints.toFinset →
      ((HGLearner.learn g).dominates o c = true ↔
        wget g.constraints (HGLearner.learnWeights g) c <
          wget g.constraints (HGLearner.learnWeights g) o) := by
    intro o c hof hcf
    exact hg_conv_dominates_iff g.constraints (HGLearner.learnWeights g)
      hmult o c (List.mem_toFinset.mp hof) (List.mem_toFinset.mp hcf)
  exact getStrataAuxF_same_weight H
    ((HGLearner.learn g).constraints.toFinset.card + 1)
    (HGLearner.learn g).constraints.toFinset (Nat.lt_succ_self _)
    (Finset.Subset.refl _) (List.mem_toFinset.mpr ha)
    (List.mem_toFinset.mpr hb) hwget s hs

/-- The concrete grammar used in the C2 witness. -/
def hgWitnessGrammar : Grammar :=
  ⟨["A", "B"], [⟨"i", "o", true, []⟩]⟩

/-- Witness for C2 at a concrete grammar (one winner, no competitors:
HG converges immediately with both weights zero). -/
theorem claim_C2_witness :
    "A" ∈ hgWitnessGrammar.constraints ∧
    "B" ∈ hgWitnessGrammar.constraints ∧
    |HGLearner.learnWeights hgWitnessGrammar "A" -
      HGLearner.learnWeights hgWitnessGrammar "B"| < 1 / 100 ∧
    ∀ s ∈ (HGLearner.learn hgWitnessGrammar).get_strata,
      ("A" ∈ s ↔ "B" ∈ s) := by
  have hA : HGLearner.learnWeights hgWitnessGrammar "A" = 0 := rfl
  have hB : HGLearner.learnWeights hgWitnessGrammar "B" = 0 := rfl
  have hdiff : |HGLearner.learnWeights hgWitnessGrammar "A" -
      HGLearner.learnWeights hgWitnessGrammar "B"| < 1 / 100 := by
    rw [hA, hB]
    norm_num
  exact ⟨by decide, by decide, hdiff,
    claim_C2_hg_epsilon_same_stratum hgWitnessGrammar "A" "B" (by decide)
      (by decide) hdiff⟩

theorem vget_pos_mem {v : List (String × Nat)} {n : String}
    (h : 0 < vget v n) : n ∈ v.map Prod.fst := by
  unfold vget at h
  cases hf : v.find? (fun p => p.1 = n) with
  | none => rw [hf] at h; simp at h
  | some p =>
    have hmem := List.mem_of_find?_eq_some hf
    have hpred := List.find?_some hf
    have : p.1 = n := of_decide_eq_true hpred
    rw [← this]
    exact List.mem_map.mpr ⟨p, hmem, rfl⟩

theorem mem_allConstraints_left {optV loseV : List (String × Nat)}
    {n : String} (h : 0 < vget optV n) : n ∈ allConstraints optV loseV := by
  unfold allConstraints
  rw [List.mem_dedup, List.mem_append]
  exact Or.inl (vget_pos_mem h)

theorem mem_allConstraints_right {optV loseV : List (String × Nat)}
    {n : String} (h : 0 < vget loseV n) : n ∈ allConstraints optV loseV := by
  unfold allConstraints
  rw [List.mem_dedup, List.mem_append]
  exact Or.inr (vget_pos_mem h)

theorem find_crucial_sound {optV loseV : List (String × Nat)}
    {cl : String × List String}
    (h : cl ∈ OTLearner.find_crucial_constraints optV loseV) :
    vget optV cl.1 < vget loseV cl.1 ∧
    ∀ l ∈ cl.2, vget loseV l < vget optV l := by
  unfold OTLearner.find_crucial_constraints at h
  obtain ⟨a, -, hf⟩ := List.mem_filterMap.mp h
  by_cases h1 : vget optV a < vget loseV a
  · rw [if_pos h1] at hf
    by_cases h2 : (allConstraints optV loseV).filter
        (fun o => decide (vget loseV o < vget optV o)) = []
    · rw [if_pos h2] at hf
      exact absurd hf (by simp)
    · rw [if_neg h2] at hf
      have ha : a = cl.1 := congrArg Prod.fst (Option.some.inj hf)
      have hl : (allConstraints optV loseV).filter
          (fun o => decide (vget loseV o < vget optV o)) = cl.2 :=
        congrArg Prod.snd (Option.some.inj hf)
      constructor
      · rw [← ha]; exact h1
      · intro l hlmem
        rw [← hl] at hlmem
        have hfl := List.of_mem_filter hlmem
        simp only [decide_eq_true_eq] at hfl
        exact hfl
  · rw [if_neg h1] at hf
    exact absurd hf (by simp)

theorem find_crucial_complete {optV loseV : List (String × Nat)}
    {C D : String} (h1 : vget optV C < vget loseV C)
    (h2 : vget loseV D < vget optV D) :
    ∃ lowers, (C, lowers) ∈ OTLearner.find_crucial_constraints optV loseV ∧
      D ∈ lowers := by
  have hC : C ∈ allConstraints optV loseV :=
    mem_allConstraints_right (by omega)
  have hD : D ∈ allConstraints optV loseV :=
    mem_allConstraints_left (by omega)
  have hDlow : D ∈ (allConstraints optV loseV).filter
      (fun o => decide (vget loseV o < vget optV o)) :=
    List.mem_filter.mpr ⟨hD, decide_eq_true h2⟩
  have hne : (allConstraints optV loseV).filter
      (fun o => decide (vget loseV o < vget optV o)) ≠ [] :=
    List.ne_nil_of_mem hDlow
  refine ⟨(allConstraints optV loseV).filter
      (fun o => decide (vget loseV o < vget optV o)), ?_, hDlow⟩
  unfold OTLearner.find_crucial_constraints
  apply List.mem_filterMap.mpr
  refine ⟨C, hC, ?_⟩
  rw [if_pos h1, if_neg hne]

theorem get_constraint_eq {g : Grammar} {n m : String}
    (h : g.get_constraint n = some m) : m = n ∧ n ∈ g.constraints := by
  unfold Grammar.get_constraint at h
  by_cases hm : n ∈ g.constraints
  · rw [if_pos hm] at h
    exact ⟨(Option.some.inj h).symm, hm⟩
  · rw [if_neg hm] at h
    exact absurd h (by simp)

theorem addLower_mono (g : Grammar) (hc : String) (po2 : PartialOrder)
    (lname : String) :
    ∀ e ∈ po2.edges, e ∈ (OTLearner.addLower g hc po2 lname).edges := by
  intro e he
  unfold OTLearner.addLower
  cases g.get_constraint lname with
  | none => exact he
  | some lc =>
    dsimp only
    by_cases hd : po2.dominates lc hc = true
    · rw [if_pos hd]; exact he
    · rw [if_neg hd]
      unfold PartialOrder.add_dominance
      exact List.mem_append_left _ he

theorem addCrucial_mono (g : Grammar) (po1 : PartialOrder)
    (cl : String × List String) :
    ∀ e ∈ po1.edges, e ∈ (OTLearner.addCrucial g po1 cl).edges := by
  intro e he
  unfold OTLearner.addCrucial
  cases g.get_constraint cl.1 with
  | none => exact he
  | some hc =>
    exact foldl_inv (OTLearner.addLower g hc) cl.2 po1 he
      (fun b a _ hb => addLower_mono g hc b a e hb)

theorem processPair_mono (g : Grammar) (po : PartialOrder)
    (optV loseV : List (String × Nat)) :
    ∀ e ∈ po.edges, e ∈ (OTLearner.processPair g po optV loseV).edges := by
  intro e he
  exact foldl_inv (OTLearner.addCrucial g) _ po he
    (fun b a _ hb => addCrucial_mono g b a e hb)

theorem pairStep_mono (g : Grammar) (ex : Example) (po1 : PartialOrder)
    (other : Example) :
    ∀ e ∈ po1.edges, e ∈ (OTLearner.pairStep g ex po1 other).edges := by
  intro e he
  unfold OTLearner.pairStep
  by_cases hcond : other.input_form = ex.input_form ∧ other.optimal = false
  · rw [if_pos hcond]
    exact processPair_mono g po1 ex.violations other.violations e he
  · rw [if_neg hcond]; exact he

theorem winnerStep_mono (g : Grammar) (po : PartialOrder) (ex : Example) :
    ∀ e ∈ po.edges, e ∈ (OTLearner.winnerStep g po ex).edges := by
  intro e he
  unfold OTLearner.winnerStep
  by_cases hopt : ex.optimal = true
  · rw [if_pos hopt]
    exact foldl_inv (OTLearner.pairStep g ex) _ po he
      (fun b a _ hb => pairStep_mono g ex b a e hb)
  · rw [if_neg hopt]; exact he

/-- The pending/established state of one demanded edge `C >> D`: either
the edge is present, or `D` (transitively) dominates `C` in the current
edge list — exactly the disjunction `dominates(D, C)` guards. -/
def EdgeOrReverse (C D : String) (po : PartialOrder) : Prop :=
  (C, D) ∈ po.edges ∨ Relation.TransGen (edgeRel po.edges) D C

theorem edgeOrReverse_mono {C D : String} {po po' : PartialOrder}
    (hsub : ∀ e ∈ po.edges, e ∈ po'.edges) (h : EdgeOrReverse C D po) :
    EdgeOrReverse C D po' := by
  rcases h with h | h
  · exact Or.inl (hsub _ h)
  · exact Or.inr (Relation.TransGen.mono (fun a b hab => hsub _ hab) h)

theorem foldl_prop_of_mem {α β : Type} {P : β → Prop} (f : β → α → β)
    {x : α} :
    ∀ {l : List α}, x ∈ l → (∀ b, P (f b x)) →
      (∀ b a, a ∈ l → P b → P (f b a)) → ∀ init, P (l.foldl f init) := by
  intro l
  induction l with
  | nil => intro hx; exact absurd hx (List.not_mem_nil x)
  | cons y ys ih =>
    intro hx hstep hpres init
    rcases List.mem_cons.mp hx with rfl | hx'
    · exact foldl_inv f ys (f init x) (hstep init)
        (fun b a ha hb => hpres b a (List.mem_cons_of_mem _ ha) hb)
    · exact ih hx' hstep
        (fun b a ha hb => hpres b a (List.mem_cons_of_mem _ ha) hb) (f init y)

theorem addLower_covers (g : Grammar) {C D : String}
    (hD : D ∈ g.constraints) (po2 : PartialOrder) :
    EdgeOrReverse C D (OTLearner.addLower g C po2 D) := by
  unfold OTLearner.addLower
  have hget : g.get_constraint D = some D := by
    unfold Grammar.get_constraint
    rw [if_pos hD]
  rw [hget]
  dsimp only
  by_cases hd : po2.dominates D C = true
  · rw [if_pos hd]
    exact Or.inr (dominatesB_sound hd)
  · rw [if_neg hd]
    apply Or.inl
    unfold PartialOrder.add_dominance
    exact List.mem_append_right _ (List.mem_singleton.mpr rfl)

theorem addCrucial_covers (g : Grammar) {C D : String}
    (hC : C ∈ g.constraints) (hD : D ∈ g.constraints)
    {lowers : List String} (hDlow : D ∈ lowers) (po1 : PartialOrder) :
    EdgeOrReverse C D (OTLearner.addCrucial g po1 (C, lowers)) := by
  unfold OTLearner.addCrucial
  have hget : g.get_constraint C = some C := by
    unfold Grammar.get_constraint
    rw [if_pos hC]
  rw [hget]
  exact foldl_prop_of_mem (OTLearner.addLower g C) hDlow
    (fun b => addLower_covers g hD b)
    (fun b a _ hb => edgeOrReverse_mono (addLower_mono g C b a) hb) po1

theorem processPair_covers (g : Grammar) {C D : String}
    (hC : C ∈ g.constraints) (hD : D ∈ g.constraints)
    {optV loseV : List (String × Nat)}
    (h1 : vget optV C < vget loseV C) (h2 : vget loseV D < vget optV D)
    (po : PartialOrder) :
    EdgeOrReverse C D (OTLearner.processPair g po optV loseV) := by
  obtain ⟨lowers, hmem, hDlow⟩ := find_crucial_complete h1 h2
  exact foldl_prop_of_mem (OTLearner.addCrucial g) hmem
    (fun b => addCrucial_covers g hC hD hDlow b)
    (fun b a _ hb => edgeOrReverse_mono (addCrucial_mono g b a) hb) po

/-- The conditions basic CD demands of every edge it adds. -/
def CrucialEdge (g : Grammar) (p : String × String) : Prop :=
  p.1 ∈ g.constraints ∧ p.2 ∈ g.constraints ∧
  ∃ w ∈ g.examples, w.optimal = true ∧
  ∃ lo ∈ g.examples, lo.optimal = false ∧ lo.input_form = w.input_form ∧
    vget w.violations p.1 < vget lo.violations p.1 ∧
    vget lo.violations p.2 < vget w.violations p.2

theorem processPair_edges_sound (g : Grammar) (po : PartialOrder)
    {w lo : Example} (hw : w ∈ g.examples) (hwopt : w.optimal = true)
    (hlo : lo ∈ g.examples) (hloopt : lo.optimal = false)
    (hin : lo.input_form = w.input_form)
    (hsound : ∀ p ∈ po.edges, CrucialEdge g p) :
    ∀ p ∈ (OTLearner.processPair g po w.violations lo.violations).edges,
      CrucialEdge g p := by
  unfold OTLearner.processPair
  refine foldl_inv (P := fun po1 => ∀ p ∈ po1.edges, CrucialEdge g p)
    (OTLearner.addCrucial g) _ po hsound ?_
  intro po1 cl hcl hinv
  obtain ⟨hcl1, hcl2⟩ := find_crucial_sound hcl
  unfold OTLearner.addCrucial
  cases hget : g.get_constraint cl.1 with
  | none => exact hinv
  | some hc =>
    obtain ⟨rfl, hcmem⟩ := get_constraint_eq hget
    refine foldl_inv (P := fun po2 => ∀ p ∈ po2.edges, CrucialEdge g p)
      (OTLearner.addLower g cl.1) cl.2 po1 hinv ?_
    intro po2 lname hlname hinv2
    unfold OTLearner.addLower
    cases hget2 : g.get_constraint lname with
    | none => exact hinv2
    | some lc =>
      dsimp only
      obtain ⟨heq, hlmem⟩ := get_constraint_eq hget2
      rw [heq]
      by_cases hd : po2.dominates lname cl.1 = true
      · rw [if_pos hd]; exact hinv2
      · rw [if_neg hd]
        intro p hp
        unfold PartialOrder.add_dominance at hp
        rcases List.mem_append.mp hp with hp | hp
        · exact hinv2 p hp
        · rw [List.mem_singleton] at hp
          subst hp
          exact ⟨hcmem, hlmem, w, hw, hwopt, lo, hlo, hloopt, hin,
            hcl1, hcl2 lname hlname⟩

/-- C7: basic constraint demotion is a single pass over the dataset (the
embedding `OTLearner.learn` is one traversal, with no convergence loop),
and its effect is exactly the claimed pairwise rule: (soundness) every
edge of the result joins declared constraints C >> D such that some
winner/loser pair of the same input form has the loser strictly worse on
C and the winner strictly worse on D; (completeness) for every such pair
and constraints C, D, the final order contains the edge C >> D unless D
(transitively) dominated C when the pair was processed — in which case D
still dominates C in the final order. -/
theorem claim_C7_basic_cd_pairwise (g : Grammar) :
    (∀ p ∈ (OTLearner.learn g).edges, CrucialEdge g p) ∧
    (∀ w ∈ g.examples, w.optimal = true →
      ∀ lo ∈ g.examples, lo.optimal = false →
        lo.input_form = w.input_form →
      ∀ C D, C ∈ g.constraints → D ∈ g.constraints →
        vget w.violations C < vget lo.violations C →
        vget lo.violations D < vget w.violations D →
        EdgeOrReverse C D (OTLearner.learn g)) := by
  constructor
  · unfold OTLearner.learn
    refine foldl_inv (P := fun po => ∀ p ∈ po.edges, CrucialEdge g p)
      (OTLearner.winnerStep g) g.examples (PartialOrder.init g.constraints)
      (by simp [PartialOrder.init]) ?_
    intro po ex hex hinv
    unfold OTLearner.winnerStep
    by_cases hopt : ex.optimal = true
    · rw [if_pos hopt]
      refine foldl_inv (P := fun po1 => ∀ p ∈ po1.edges, CrucialEdge g p)
        (OTLearner.pairStep g ex) _ po hinv ?_
      intro po1 other hother hinv1
      unfold OTLearner.pairStep
      by_cases hcond : other.input_form = ex.input_form ∧
          other.optimal = false
      · rw [if_pos hcond]
        exact processPair_edges_sound g po1 hex hopt hother hcond.2
          hcond.1 hinv1
      · rw [if_neg hcond]; exact hinv1
    · rw [if_neg hopt]; exact hinv
  · intro w hw hwopt lo hlo hloopt hin C D hC hD h1 h2
    unfold OTLearner.learn
    refine foldl_prop_of_mem (OTLearner.winnerStep g) hw ?_
      (fun b a _ hb => edgeOrReverse_mono (winnerStep_mono g b a) hb) _
    intro po
    unfold OTLearner.winnerStep
    rw [if_pos hwopt]
    refine foldl_prop_of_mem (OTLearner.pairStep g w) hlo ?_
      (fun b a _ hb => edgeOrReverse_mono (pairStep_mono g w b a) hb) po
    intro po1
    unfold OTLearner.pairStep
    rw [if_pos ⟨hin, hloopt⟩]
    exact processPair_covers g hC hD h1 h2 po1

/-- Witness for C7 at a concrete grammar: winner /i/→o1 violating Y,
loser /i/→o2 violating X, so X >> Y is demanded and indeed added. -/
theorem claim_C7_witness :
    (⟨"i", "o2", false, [("X", 1)]⟩ : Example) ∈
      (Grammar.mk ["X", "Y"]
        [⟨"i", "o1", true, [("Y", 1)]⟩, ⟨"i", "o2", false, [("X", 1)]⟩]
        : Grammar).examples ∧
    EdgeOrReverse "X" "Y"
      (OTLearner.learn ⟨["X", "Y"],
        [⟨"i", "o1", true, [("Y", 1)]⟩, ⟨"i", "o2", false, [("X", 1)]⟩]⟩) :=
  ⟨by decide,
    (claim_C7_basic_cd_pairwise ⟨["X", "Y"],
        [⟨"i", "o1", true, [("Y", 1)]⟩, ⟨"i", "o2", false, [("X", 1)]⟩]⟩).2
      ⟨"i", "o1", true, [("Y", 1)]⟩ (by decide) (by decide)
      ⟨"i", "o2", false, [("X", 1)]⟩ (by decide) (by decide) (by decide)
      "X" "Y" (by decide) (by decide) (by decide) (by decide)⟩

/-- `MaxEntLearner`'s candidate harmony (`-sum(weights.get(c, 0.0) *
viols)` over the violation entries). -/
def MaxEntLearner.harmony (decl : List String) (w : String → ℚ)
    (v : List (String × Nat)) : ℚ :=
  -(v.foldl (fun s p => s + wget decl w p.1 * (p.2 : ℚ)) 0)

/-- The un-normalized score `exp(harmony)` of one candidate;
`math.exp` is transcendental and is kept as the explicit function
parameter `expF`. -/
def MaxEntLearner.score (expF : ℚ → ℚ) (decl : List String)
    (w : String → ℚ) (ex : Example) : ℚ :=
  expF (MaxEntLearner.harmony decl w ex.violations)

/-- `MaxEntLearner._expected_frequencies` for one candidate: normalized
score, or the uniform fallback when the total is exactly zero. -/
def MaxEntLearner.expected (expF : ℚ → ℚ) (decl : List String)
    (w : String → ℚ) (cands : List Example) (ex : Example) : ℚ :=
  if cands.foldl (fun s c => s + MaxEntLearner.score expF decl w c) 0 = 0
  then 1 / cands.length
  else MaxEntLearner.score expF decl w ex /
    cands.foldl (fun s c => s + MaxEntLearner.score expF decl w c) 0

/-- The `gradients[c_name] += (obs - exp) * viols` loop over one
candidate's violation entries.  `gradients` has exactly the declared
names as keys, so an unknown violation key raises `KeyError` — modelled
as the `Except.error` case. -/
def MaxEntLearner.accumGrad (decl : List String) (grad : String → ℚ)
    (contrib : ℚ) (v : List (String × Nat)) : Except String (String → ℚ) :=
  v.foldl (fun acc p =>
    match acc with
    | Except.error e => Except.error e
    | Except.ok gr =>
      if p.1 ∈ decl then
        Except.ok (fun n => if n = p.1 then gr n + contrib * (p.2 : ℚ)
          else gr n)
      else Except.error ("KeyError: " ++ p.1)) (Except.ok grad)

/-- Gradient accumulation over one competition set. -/
def MaxEntLearner.groupGrad (expF : ℚ → ℚ) (decl : List String)
    (w : String → ℚ) (cands : List Example)
    (grad : String → ℚ) : Except String (String → ℚ) :=
  cands.foldl (fun acc cand =>
    match acc with
    | Except.error e => Except.error e
    | Except.ok gr =>
      MaxEntLearner.accumGrad decl gr
        ((if cand.optimal then (1 : ℚ) else 0) -
          MaxEntLearner.expected expF decl w cands cand) cand.violations)
    (Except.ok grad)

/-- The competition sets of `MaxEntLearner.learn` (`input_groups`):
examples grouped by input form, insertion-ordered like the Python dict. -/
def MaxEntLearner.inputGroups (examples : List Example) :
    List (List Example) :=
  ((examples.map (fun e => e.input_form)).dedup).map
    (fun i => examples.filter (fun e => decide (e.input_form = i)))

/-- One gradient-descent iteration of `MaxEntLearner.learn`: accumulate
gradients over all groups, update every declared weight, and report
whether the total absolute change fell below the tolerance `0.001`. -/
def MaxEntLearner.maxEntIter (expF : ℚ → ℚ) (decl : List String)
    (groups : List (List Example)) (w : String → ℚ) :
    Except String ((String → ℚ) × Bool) :=
  match groups.foldl (fun acc cands =>
      match acc with
      | Except.error e => Except.error e
      | Except.ok gr => MaxEntLearner.groupGrad expF decl w cands gr)
    (Except.ok (fun _ => 0) : Except String (String → ℚ)) with
  | Except.error e => Except.error e
  | Except.ok grad =>
    Except.ok (fun n => if n ∈ decl then w n - (1 / 10) * grad n else w n,
      decide ((decl.dedup.foldl
        (fun s n => s + |(if n ∈ decl then w n - (1 / 10) * grad n else w n)
          - w n|) 0) < 1 / 1000))

/-- The `for iteration in range(max_iterations)` loop of
`MaxEntLearner.learn` with the convergence break. -/
def MaxEntLearner.maxEntLoop (expF : ℚ → ℚ) (decl : List String)
    (groups : List (List Example)) :
    Nat → (String → ℚ) → Except String (String → ℚ)
  | 0, w => Except.ok w
  | fuel + 1, w =>
    match MaxEntLearner.maxEntIter expF decl groups w with
    | Except.error e => Except.error e
    | Except.ok (w', true) => Except.ok w'
    | Except.ok (w', false) =>
      MaxEntLearner.maxEntLoop expF decl groups fuel w'

/-- `MaxEntLearner.learn` with default parameters (`learning_rate = 0.1`,
`max_iterations = 1000`, `tolerance = 0.001`), `math.exp` abstracted as
`expF`. -/
def MaxEntLearner.learn (expF : ℚ → ℚ) (g : Grammar) :
    Except String PartialOrder :=
  match MaxEntLearner.maxEntLoop expF g.constraints
      (MaxEntLearner.inputGroups g.examples) 1000 (fun _ => 0) with
  | Except.error e => Except.error e
  | Except.ok w =>
    Except.ok (MaxEntLearner.weights_to_partial_order g.constraints w)

/-- The per-constraint minimum violation count over the remaining
candidates (`min(...)` in `EDCDLearner._predict_winner`; the `0` default
is never reached, the caller guards against an empty list). -/
def EDCDLearner.minViol (remaining : List (Nat × Example)) (c : String) :
    Nat :=
  match remaining.map (fun p => vget p.2.violations c) with
  | [] => 0
  | x :: xs => xs.foldl min x

/-- The stratum-filtering loop of `EDCDLearner._predict_winner`.
Examples carry their index in the grammar's example list, standing in
for Python object identity.  A nonempty stratum with no remaining
candidate makes Python's `min()` raise `ValueError` (error case); an
exhausted candidate list at the end raises `IndexError`. -/
def EDCDLearner.predictGo (candidates : List (Nat × Example)) :
    List (Finset String) → List (Nat × Example) →
      Except String (Nat × Example)
  | [], remaining =>
    match remaining with
    | r :: _ => Except.ok r
    | [] =>
      match candidates with
      | c :: _ => Except.ok c
      | [] => Except.error "IndexError: list index out of range"
  | stratum :: rest, remaining =>
    match remaining with
    | [r] => Except.ok r
    | _ =>
      if stratum = ∅ then EDCDLearner.predictGo candidates rest remaining
      else
        match remaining with
        | [] => Except.error "ValueError: min() arg is an empty sequence"
        | _ =>
          EDCDLearner.predictGo candidates rest
            (remaining.filter (fun cand =>
              decide (∀ c ∈ stratum, vget cand.2.violations c ≤
                EDCDLearner.minViol remaining c)))

/-- `EDCDLearner._demote_for_pair`: demote loser-preferring constraints
below winner-preferring ones (unless the reverse already holds). -/
def EDCDLearner.demote_for_pair (g : Grammar) (winner loser : Example)
    (po : PartialOrder) : PartialOrder :=
  (g.constraints.filter (fun c =>
      decide (vget winner.violations c < vget loser.violations c))).foldl
    (fun po1 wc =>
      (g.constraints.filter (fun c =>
          decide (vget loser.violations c < vget winner.violations c))).foldl
        (fun po2 lc =>
          if po2.dominates lc wc = true then po2
          else po2.add_dominance wc lc) po1) po

/-- Processing of one winner inside an EDCD pass: predict over the full
competition set and demote on a misprediction. -/
def EDCDLearner.processWinner (g : Grammar) (po : PartialOrder)
    (wi : Nat × Example) : Except String (PartialOrder × Bool) :=
  match EDCDLearner.predictGo
      (g.examples.enum.filter
        (fun p => decide (p.2.input_form = wi.2.input_form)))
      po.get_strata
      (g.examples.enum.filter
        (fun p => decide (p.2.input_form = wi.2.input_form))) with
  | Except.error e => Except.error e
  | Except.ok pred =>
    if pred = wi then Except.ok (po, false)
    else
      Except.ok ((g.examples.enum.filter
          (fun p => decide (p.2.input_form = wi.2.input_form))).foldl
        (fun po2 lo =>
          if lo.2.optimal = true ∨ lo = wi then po2
          else EDCDLearner.demote_for_pair g wi.2 lo.2 po2) po, true)

/-- The per-winner step of an EDCD pass (propagating a raised error and
accumulating the `errors` flag). -/
def EDCDLearner.passStep (g : Grammar)
    (acc : Except String (PartialOrder × Bool)) (wi : Nat × Example) :
    Except String (PartialOrder × Bool) :=
  match acc with
  | Except.error e => Except.error e
  | Except.ok po1 =>
    match EDCDLearner.processWinner g po1.1 wi with
    | Except.error e => Except.error e
    | Except.ok po2 => Except.ok (po2.1, po1.2 || po2.2)

/-- One pass of the EDCD loop over all winners, threading the order and
the `errors` flag. -/
def EDCDLearner.edcdPass (g : Grammar) (winners : List (Nat × Example))
    (po : PartialOrder) : Except String (PartialOrder × Bool) :=
  winners.foldl (EDCDLearner.passStep g) (Except.ok (po, false))

/-- The error-driven iteration of `EDCDLearner.learn`, stopping at the
first pass with no errors. -/
def EDCDLearner.edcdLoop (g : Grammar) (winners : List (Nat × Example)) :
    Nat → PartialOrder → Except String PartialOrder
  | 0, po => Except.ok po
  | fuel + 1, po =>
    match EDCDLearner.edcdPass g winners po with
    | Except.error e => Except.error e
    | Except.ok (po', true) => EDCDLearner.edcdLoop g winners fuel po'
    | Except.ok (po', false) => Except.ok po'

/-- `EDCDLearner.learn` with the default `max_iterations = 1000`. -/
def EDCDLearner.learn (g : Grammar) : Except String PartialOrder :=
  EDCDLearner.edcdLoop g (g.examples.enum.filter (fun p => p.2.optimal))
    1000 (PartialOrder.init g.constraints)

/-- The noisy evaluation ranking of `GLALearner.learn`: the dict
`{c: ranking_values[c] + gauss(0, noise)}` over the (deduplicated)
declared names, with `dict.get(name, 0)` lookup semantics.  The Gaussian
draws are an explicit stream `noise` consumed in key order from the
running counter `ctr`. -/
def GLALearner.noisyGet (decl : List String) (rv : String → ℚ)
    (noise : Nat → ℚ) (ctr : Nat) (n : String) : ℚ :=
  if n ∈ decl then rv n + noise (ctr + decl.findIdx (fun m => decide (m = n)))
  else 0

/-- Harmony under the noisy ranking (`_predict_winner_gla`). -/
def GLALearner.gla_harmony (decl : List String) (rv : String → ℚ)
    (noise : Nat → ℚ) (ctr : Nat) (v : List (String × Nat)) : ℚ :=
  -(v.foldl (fun s p =>
    s + GLALearner.noisyGet decl rv noise ctr p.1 * (p.2 : ℚ)) 0)

/-- The per-candidate step of `_predict_winner_gla`'s best-harmony scan. -/
def GLALearner.predictStep (decl : List String) (rv : String → ℚ)
    (noise : Nat → ℚ) (ctr : Nat)
    (acc : Option ((Nat × Example) × ℚ)) (cand : Nat × Example) :
    Option ((Nat × Example) × ℚ) :=
  match acc with
  | none =>
    some (cand, GLALearner.gla_harmony decl rv noise ctr cand.2.violations)
  | some best =>
    if best.2 < GLALearner.gla_harmony decl rv noise ctr cand.2.violations
    then some (cand,
      GLALearner.gla_harmony decl rv noise ctr cand.2.violations)
    else some best

/-- `GLALearner._predict_winner_gla`: first candidate of strictly maximal
harmony (`best_harmony` starts at `-inf`, so the first candidate always
replaces it). -/
def GLALearner.predict_winner_gla (decl : List String) (rv : String → ℚ)
    (noise : Nat → ℚ) (ctr : Nat) (candidates : List (Nat × Example)) :
    Option (Nat × Example) :=
  (candidates.foldl (GLALearner.predictStep decl rv noise ctr) none).map
    (fun best => best.1)

/-- `GLALearner._update_rankings` (default plasticity `2.0`): promote
winner-preferring constraints, demote loser-preferring ones, iterating
the declared constraint list. -/
def GLALearner.update_rankings (decl : List String) (rv : String → ℚ)
    (winner loser : Example) : String → ℚ :=
  decl.foldl (fun rv1 c =>
    if vget winner.violations c < vget loser.violations c then
      fun n => if n = c then rv1 n + 2 else rv1 n
    else if vget loser.violations c < vget winner.violations c then
      fun n => if n = c then rv1 n - 2 else rv1 n
    else rv1) rv

/-- Processing of one winner (given by its index into the example list)
inside a GLA iteration; the counter advances by one Gaussian draw per
ranking-dict key whether or not an update happens. -/
def GLALearner.processWinner (g : Grammar) (noise : Nat → ℚ)
    (acc : (String → ℚ) × Nat) (idx : Nat) : (String → ℚ) × Nat :=
  match g.examples.get? idx with
  | none => acc
  | some ex =>
    match GLALearner.predict_winner_gla g.constraints.dedup acc.1 noise acc.2
      (g.examples.enum.filter
        (fun p => decide (p.2.input_form = ex.input_form))) with
    | none => (acc.1, acc.2 + g.constraints.dedup.length)
    | some p =>
      if p = (idx, ex) then (acc.1, acc.2 + g.constraints.dedup.length)
      else (GLALearner.update_rankings g.constraints acc.1 ex p.2,
        acc.2 + g.constraints.dedup.length)

/-- The `for iteration in range(max_iterations)` loop of
`GLALearner.learn`: `random.shuffle` permutes the winner list in place
each iteration (modelled by the explicit `shuffles` stream acting on the
winner indices), then every winner is evaluated under fresh noise. -/
def GLALearner.glaLoop (g : Grammar) (noise : Nat → ℚ)
    (shuffles : Nat → List Nat → List Nat) :
    Nat → List Nat × ((String → ℚ) × Nat) → List Nat × ((String → ℚ) × Nat)
  | 0, st => st
  | fuel + 1, st =>
    GLALearner.glaLoop g noise shuffles fuel
      (shuffles fuel st.1,
        (shuffles fuel st.1).foldl (GLALearner.processWinner g noise) st.2)

/-- The winner indices of a grammar (the optimal examples, by position). -/
def GLALearner.winnerIdx (g : Grammar) : List Nat :=
  (g.examples.enum.filter (fun p => p.2.optimal)).map (fun p => p.1)

/-- The final continuous ranking values of `GLALearner.learn` (initial
ranking `100.0`, `max_iterations = 1000`), given the noise and shuffle
streams. -/
def GLALearner.learnValues (g : Grammar) (noise : Nat → ℚ)
    (shuffles : Nat → List Nat → List Nat) : String → ℚ :=
  (GLALearner.glaLoop g noise shuffles 1000
    (GLALearner.winnerIdx g, (fun _ => 100, 0))).2.1

/-- `GLALearner.learn`, given the noise and shuffle streams. -/
def GLALearner.learn (g : Grammar) (noise : Nat → ℚ)
    (shuffles : Nat → List Nat → List Nat) : PartialOrder :=
  GLALearner.rankings_to_partial_order g.constraints
    (GLALearner.learnValues g noise shuffles)

/-- Deletion of the violation entries whose key is not a declared
constraint name. -/
def stripViolations (decl : List String) (v : List (String × Nat)) :
    List (String × Nat) :=
  v.filter (fun p => decide (p.1 ∈ decl))

/-- An example with its unknown-key violation entries deleted. -/
def stripExample (decl : List String) (ex : Example) : Example :=
  ⟨ex.input_form, ex.output_form, ex.optimal,
    stripViolations decl ex.violations⟩

/-- A grammar with every example's unknown-key violation entries
deleted. -/
def stripGrammar (g : Grammar) : Grammar :=
  ⟨g.constraints, g.examples.map (stripExample g.constraints)⟩

theorem vget_strip {decl : List String} {v : List (String × Nat)}
    {n : String} (hn : n ∈ decl) :
    vget (stripViolations decl v) n = vget v n := by
  unfold stripViolations vget
  induction v with
  | nil => simp
  | cons q v ih =>
    by_cases hq : q.1 = n
    · have hp : decide (q.1 ∈ decl) = true := decide_eq_true (hq ▸ hn)
      rw [List.filter_cons, hp]
      simp only [if_true]
      rw [List.find?_cons, List.find?_cons]
      have : (decide (q.1 = n)) = true := decide_eq_true hq
      rw [this]
    · rw [List.filter_cons]
      by_cases hp : decide (q.1 ∈ decl) = true
      · rw [hp]
        simp only [if_true]
        rw [List.find?_cons, List.find?_cons]
        have : (decide (q.1 = n)) = false := decide_eq_false hq
        rw [this]
        exact ih
      · rw [Bool.not_eq_true] at hp
        rw [hp]
        simp only [Bool.false_eq_true, if_false]
        rw [List.find?_cons]
        have : (decide (q.1 = n)) = false := decide_eq_false hq
        rw [this]
        exact ih

theorem foldl_filterMap {α β γ : Type} (f : α → Option β) (g : γ → β → γ) :
    ∀ (l : List α) (init : γ),
      (l.filterMap f).foldl g init =
        l.foldl (fun b a =>
          match f a with
          | none => b
          | some c => g b c) init := by
  intro l
  induction l with
  | nil => intro init; rfl
  | cons a l ih =>
    intro init
    rw [List.filterMap_cons]
    cases hf : f a with
    | none => rw [List.foldl_cons, hf]; exact ih init
    | some c => rw [List.foldl_cons, List.foldl_cons, hf]; exact ih (g init c)

theorem foldl_filter_noop {α β : Type} (p : α → Bool) (f : β → α → β) :
    ∀ (l : List α) (init : β),
      (∀ b a, a ∈ l → p a = false → f b a = b) →
      l.foldl f init = (l.filter p).foldl f init := by
  intro l
  induction l with
  | nil => intro init _; rfl
  | cons a l ih =>
    intro init hno
    rw [List.foldl_cons, List.filter_cons]
    cases hp : p a with
    | true =>
      simp only [if_true]
      rw [List.foldl_cons]
      exact ih (f init a) (fun b x hx => hno b x (List.mem_cons_of_mem _ hx))
    | false =>
      simp only [Bool.false_eq_true, if_false]
      rw [hno init a (List.mem_cons_self ..) hp]
      exact ih init (fun b x hx => hno b x (List.mem_cons_of_mem _ hx))

theorem foldl_ext {α β : Type} (f f' : β → α → β) :
    ∀ (l : List α) (init : β), (∀ b a, a ∈ l → f b a = f' b a) →
      l.foldl f init = l.foldl f' init := by
  intro l
  induction l with
  | nil => intro init _; rfl
  | cons a l ih =>
    intro init hext
    rw [List.foldl_cons, List.foldl_cons,
      hext init a (List.mem_cons_self ..)]
    exact ih (f' init a) (fun b x hx => hext b x (List.mem_cons_of_mem _ hx))

theorem dedup_filter {α : Type} [DecidableEq α] (p : α → Bool) :
    ∀ (l : List α), (l.filter p).dedup = l.dedup.filter p := by
  intro l
  induction l with
  | nil => rfl
  | cons a l ih =>
    rw [List.filter_cons]
    by_cases hm : a ∈ l
    · rw [List.dedup_cons_of_mem hm]
      cases hp : p a with
      | true =>
        simp only [if_true]
        have hmf : a ∈ l.filter p := List.mem_filter.mpr ⟨hm, hp⟩
        rw [List.dedup_cons_of_mem hmf]
        exact ih
      | false =>
        simp only [Bool.false_eq_true, if_false]
        exact ih
    · rw [List.dedup_cons_of_not_mem hm, List.filter_cons]
      cases hp : p a with
      | true =>
        simp only [if_true]
        have hmf : a ∉ l.filter p := fun hmem =>
          hm (List.mem_of_mem_filter hmem)
        rw [List.dedup_cons_of_not_mem hmf]
        rw [ih]
      | false =>
        simp only [Bool.false_eq_true, if_false]
        exact ih

theorem mapfst_filter (q : String → Bool) :
    ∀ (v : List (String × Nat)),
      ((v.filter (fun p => q p.1)).map Prod.fst) =
        (v.map Prod.fst).filter q := by
  intro v
  induction v with
  | nil => rfl
  | cons a v ih =>
    rw [List.filter_cons, List.map_cons, List.filter_cons]
    cases hq : q a.1 with
    | true => simp only [if_true, List.map_cons]; rw [ih]
    | false => simp only [Bool.false_eq_true, if_false]; exact ih

theorem enumFrom_map {α β : Type} (f : α → β) :
    ∀ (l : List α) (n : Nat),
      (l.map f).enumFrom n =
        (l.enumFrom n).map (fun p => (p.1, f p.2)) := by
  intro l
  induction l with
  | nil => intro n; rfl
  | cons a l ih =>
    intro n
    rw [List.map_cons, List.enumFrom_cons, List.enumFrom_cons, List.map_cons]
    rw [ih]

theorem enum_map {α β : Type} (f : α → β) (l : List α) :
    (l.map f).enum = l.enum.map (fun p => (p.1, f p.2)) :=
  enumFrom_map f l 0

theorem mem_enumFrom_get? {α : Type} :
    ∀ {l : List α} {n : Nat} {p : Nat × α}, p ∈ l.enumFrom n →
      n ≤ p.1 ∧ l.get? (p.1 - n) = some p.2 := by
  intro l
  induction l with
  | nil => intro n p h; simp [List.enumFrom] at h
  | cons a l ih =>
    intro n p h
    rw [List.enumFrom_cons] at h
    rcases List.mem_cons.mp h with rfl | h
    · simp
    · obtain ⟨hle, hget⟩ := ih h
      refine ⟨by omega, ?_⟩
      have : p.1 - n = (p.1 - (n + 1)) + 1 := by omega
      rw [this]
      simpa using hget

theorem mem_enum_get? {α : Type} {l : List α} {p : Nat × α}
    (h : p ∈ l.enum) : l.get? p.1 = some p.2 := by
  have := mem_enumFrom_get? (n := 0) h
  simpa using this.2

theorem enum_fst_inj {α : Type} {l : List α} {p q : Nat × α}
    (hp : p ∈ l.enum) (hq : q ∈ l.enum) (h : p.1 = q.1) : p = q := by
  have h1 := mem_enum_get? hp
  have h2 := mem_enum_get? hq
  rw [h] at h1
  rw [h1] at h2
  have : p.2 = q.2 := Option.some.inj h2
  exact Prod.ext h this

theorem addLower_unknown_noop (g : Grammar) (hc : String)
    (b : PartialOrder) (lname : String) (h : lname ∉ g.constraints) :
    OTLearner.addLower g hc b lname = b := by
  unfold OTLearner.addLower Grammar.get_constraint
  rw [if_neg h]

theorem addCrucial_unknown_noop (g : Grammar) (b : PartialOrder)
    (cl : String × List String) (h : cl.1 ∉ g.constraints) :
    OTLearner.addCrucial g b cl = b := by
  unfold OTLearner.addCrucial Grammar.get_constraint
  rw [if_neg h]

theorem addCrucial_filter_lowers (g : Grammar) (b : PartialOrder)
    (a : String) (lowers : List String) :
    OTLearner.addCrucial g b (a, lowers) =
      OTLearner.addCrucial g b
        (a, lowers.filter (fun n => decide (n ∈ g.constraints))) := by
  unfold OTLearner.addCrucial
  cases hg : g.get_constraint a with
  | none => rfl
  | some hc =>
    dsimp only
    exact foldl_filter_noop _ _ lowers b
      (fun b2 x _ hpx => addLower_unknown_noop g hc b2 x
        (of_decide_eq_false hpx))

/-- Unknown violation keys never influence the edges basic CD adds for
one winner/loser pair: stripping them from both violation dictionaries
leaves `processPair` unchanged. -/
theorem processPair_strip (g : Grammar) (po : PartialOrder)
    (v₁ v₂ : List (String × Nat)) :
    OTLearner.processPair g po (stripViolations g.constraints v₁)
      (stripViolations g.constraints v₂) =
    OTLearner.processPair g po v₁ v₂ := by
  have hallC : allConstraints (stripViolations g.constraints v₁)
      (stripViolations g.constraints v₂) =
      (allConstraints v₁ v₂).filter (fun n => decide (n ∈ g.constraints)) := by
    unfold allConstraints stripViolations
    rw [mapfst_filter (fun n => decide (n ∈ g.constraints)) v₁,
      mapfst_filter (fun n => decide (n ∈ g.constraints)) v₂,
      ← List.filter_append, dedup_filter]
  unfold OTLearner.processPair OTLearner.find_crucial_constraints
  rw [hallC, foldl_filterMap, foldl_filterMap]
  refine Eq.trans (foldl_ext _ _ _ po ?ext)
    ((foldl_filter_noop _ _ _ po ?noop).symm)
  case ext =>
    intro b a ha
    have hadecl : a ∈ g.constraints := by
      have := List.mem_filter.mp ha
      simpa using this.2
    have hv1 : vget (stripViolations g.constraints v₁) a = vget v₁ a :=
      vget_strip hadecl
    have hv2 : vget (stripViolations g.constraints v₂) a = vget v₂ a :=
      vget_strip hadecl
    rw [hv1, hv2]
    by_cases hcond : vget v₁ a < vget v₂ a
    · rw [if_pos hcond, if_pos hcond]
      have hlow : ((allConstraints v₁ v₂).filter
          (fun n => decide (n ∈ g.constraints))).filter
            (fun o => decide (vget (stripViolations g.constraints v₂) o <
              vget (stripViolations g.constraints v₁) o)) =
          ((allConstraints v₁ v₂).filter
            (fun o => decide (vget v₂ o < vget v₁ o))).filter
            (fun n => decide (n ∈ g.constraints)) := by
        rw [List.filter_congr (fun o ho => by
          have hod : o ∈ g.constraints := by
            have := List.mem_filter.mp ho
            simpa using this.2
          rw [vget_strip hod, vget_strip hod])]
        rw [List.filter_filter, List.filter_filter]
        apply List.filter_congr
        intro x _
        rw [Bool.and_comm]
      rw [hlow]
      by_cases hnil : (allConstraints v₁ v₂).filter
          (fun o => decide (vget v₂ o < vget v₁ o)) = []
      · rw [hnil]
        simp only [List.filter_nil, if_pos rfl]
      · rw [if_neg hnil]
        by_cases hnil2 : ((allConstraints v₁ v₂).filter
            (fun o => decide (vget v₂ o < vget v₁ o))).filter
            (fun n => decide (n ∈ g.constraints)) = []
        · rw [if_pos hnil2]
          dsimp only
          rw [addCrucial_filter_lowers g b a, hnil2]
          unfold OTLearner.addCrucial
          cases hg : g.get_constraint a with
          | none => rfl
          | some hc => rfl
        · rw [if_neg hnil2]
          dsimp only
          rw [addCrucial_filter_lowers g b a
            ((allConstraints v₁ v₂).filter
              (fun o => decide (vget v₂ o < vget v₁ o)))]
    · rw [if_neg hcond, if_neg hcond]
  case noop =>
    intro b a _ hpa
    by_cases hcond : vget v₁ a < vget v₂ a
    · rw [if_pos hcond]
      by_cases hnil : (allConstraints v₁ v₂).filter
          (fun o => decide (vget v₂ o < vget v₁ o)) = []
      · rw [if_pos hnil]
      · rw [if_neg hnil]
        exact addCrucial_unknown_noop g b _ (of_decide_eq_false hpa)
    · rw [if_neg hcond]

theorem pairStep_strip (g : Grammar) (ex : Example) (po1 : PartialOrder)
    (other : Example) :
    OTLearner.pairStep (stripGrammar g) (stripExample g.constraints ex) po1
      (stripExample g.constraints other) =
    OTLearner.pairStep g ex po1 other := by
  unfold OTLearner.pairStep
  show (if other.input_form = ex.input_form ∧ other.optimal = false then
      OTLearner.processPair (stripGrammar g) po1
        (stripViolations g.constraints ex.violations)
        (stripViolations g.constraints other.violations)
    else po1) = _
  by_cases hcond : other.input_form = ex.input_form ∧ other.optimal = false
  · rw [if_pos hcond, if_pos hcond]
    exact processPair_strip g po1 ex.violations other.violations
  · rw [if_neg hcond, if_neg hcond]

theorem winnerStep_strip (g : Grammar) (po : PartialOrder) (ex : Example) :
    OTLearner.winnerStep (stripGrammar g) po (stripExample g.constraints ex)
      = OTLearner.winnerStep g po ex := by
  unfold OTLearner.winnerStep
  show (if ex.optimal then
      (g.examples.map (stripExample g.constraints)).foldl
        (OTLearner.pairStep (stripGrammar g) (stripExample g.constraints ex))
        po
    else po) = _
  by_cases hopt : ex.optimal = true
  · rw [if_pos hopt, if_pos hopt, List.foldl_map]
    exact foldl_ext _ _ _ po
      (fun b other _ => pairStep_strip g ex b other)
  · rw [if_neg hopt, if_neg hopt]

/-- C3 for basic CD: unknown violation keys never influence
`OTLearner.learn`. -/
theorem ot_learn_strip (g : Grammar) :
    OTLearner.learn (stripGrammar g) = OTLearner.learn g := by
  unfold OTLearner.learn
  show (g.examples.map (stripExample g.constraints)).foldl
      (OTLearner.winnerStep (stripGrammar g))
      (PartialOrder.init g.constraints) = _
  rw [List.foldl_map]
  exact foldl_ext _ _ _ _ (fun b ex _ => winnerStep_strip g b ex)

theorem harmony_strip (decl : List String) (w : String → ℚ)
    (v : List (String × Nat)) :
    HGLearner.compute_harmony decl w (stripViolations decl v) =
      HGLearner.compute_harmony decl w v := by
  unfold HGLearner.compute_harmony stripViolations
  symm
  apply foldl_filter_noop
  intro b p _ hpa
  have hnot : p.1 ∉ decl := of_decide_eq_false hpa
  unfold wget
  rw [if_neg hnot]
  ring

theorem updateWeights_strip (lr : ℚ) (decl : List String) (w : String → ℚ)
    (v₁ v₂ : List (String × Nat)) :
    HGLearner.updateWeights lr decl w (stripViolations decl v₁)
      (stripViolations decl v₂) =
    HGLearner.updateWeights lr decl w v₁ v₂ := by
  funext n
  unfold HGLearner.updateWeights
  by_cases hm : n ∈ decl
  · rw [if_pos hm, if_pos hm, vget_strip hm, vget_strip hm]
  · rw [if_neg hm, if_neg hm]

theorem hgPass_strip (lr : ℚ) (g : Grammar) (w : String → ℚ) :
    HGLearner.hgPass lr g.constraints
      (g.examples.map (stripExample g.constraints)) w =
    HGLearner.hgPass lr g.constraints g.examples w := by
  unfold HGLearner.hgPass
  rw [List.foldl_map]
  apply foldl_ext
  intro acc ex _
  show (if ex.optimal then
      (g.examples.map (stripExample g.constraints)).foldl _ acc
    else acc) = _
  by_cases hopt : ex.optimal = true
  · rw [if_pos hopt, if_pos hopt, List.foldl_map]
    apply foldl_ext
    intro acc2 other _
    show (if other.input_form = ex.input_form ∧ other.optimal = false then
        if HGLearner.compute_harmony g.constraints acc.1
            (stripViolations g.constraints ex.violations) ≤
          HGLearner.compute_harmony g.constraints acc2.1
            (stripViolations g.constraints other.violations) then
          (HGLearner.updateWeights lr g.constraints acc2.1
            (stripViolations g.constraints ex.violations)
            (stripViolations g.constraints other.violations), true)
        else acc2
      else acc2) = _
    rw [harmony_strip, harmony_strip, updateWeights_strip]
  · rw [if_neg hopt, if_neg hopt]

theorem hgLoop_strip (g : Grammar) :
    ∀ (fuel : Nat) (w : String → ℚ),
      HGLearner.hgLoop (1 / 10) g.constraints
        (g.examples.map (stripExample g.constraints)) fuel w =
      HGLearner.hgLoop (1 / 10) g.constraints g.examples fuel w := by
  intro fuel
  induction fuel with
  | zero => intro w; rfl
  | succ n ih =>
    intro w
    unfold HGLearner.hgLoop
    rw [hgPass_strip]
    cases hp : HGLearner.hgPass (1 / 10) g.constraints g.examples w with
    | mk w' upd =>
      cases upd with
      | true => exact ih w'
      | false => rfl

/-- C3 for HG: unknown violation keys never influence the learned weight
table. -/
theorem hg_weights_strip (g : Grammar) :
    HGLearner.learnWeights (stripGrammar g) = HGLearner.learnWeights g := by
  unfold HGLearner.learnWeights
  exact hgLoop_strip g 1000 (fun _ => 0)

/-- C3 for HG: unknown violation keys never influence the returned
`PartialOrder`. -/
theorem hg_learn_strip (g : Grammar) :
    HGLearner.learn (stripGrammar g) = HGLearner.learn g := by
  unfold HGLearner.learn
  show HGLearner.weights_to_partial_order g.constraints
    (HGLearner.learnWeights (stripGrammar g)) = _
  rw [hg_weights_strip]

theorem all_map_congr {α β : Type} (f : α → β) (p : β → Bool)
    (q : α → Bool) :
    ∀ (l : List α), (∀ a ∈ l, p (f a) = q a) →
      (l.map f).all p = l.all q := by
  intro l
  induction l with
  | nil => intro _; rfl
  | cons a l ih =>
    intro h
    rw [List.map_cons, List.all_cons, List.all_cons,
      h a (List.mem_cons_self ..),
      ih (fun x hx => h x (List.mem_cons_of_mem _ hx))]

/-- The stripped pair map used to relate the RCD winner/loser pairs of a
grammar and of its stripped form. -/
def stripPair (decl : List String) (wl : Example × Example) :
    Example × Example :=
  (stripExample decl wl.1, stripExample decl wl.2)

theorem wl_pairs_strip (g : Grammar) :
    RCDLearner.get_winner_loser_pairs (stripGrammar g) =
      (RCDLearner.get_winner_loser_pairs g).map
        (stripPair g.constraints) := by
  unfold RCDLearner.get_winner_loser_pairs
  show ((g.examples.map (stripExample g.constraints)).filter
      (fun w => w.optimal)).flatMap _ = _
  rw [List.map_filter, List.flatMap_map, List.map_flatMap]
  show (g.examples.filter (fun w => w.optimal)).flatMap _ =
    (g.examples.filter (fun w => w.optimal)).flatMap _
  congr 1
  funext w
  show ((g.examples.map (stripExample g.constraints)).filter
      (fun l => decide (l.input_form = w.input_form) && !l.optimal)).map
      (fun l => (stripExample g.constraints w, l)) = _
  rw [List.map_filter]
  show ((g.examples.filter (fun l =>
      decide (l.input_form = w.input_form) && !l.optimal)).map
      (stripExample g.constraints)).map
      (fun l => (stripExample g.constraints w, l)) = _
  rw [List.map_map, List.map_map]
  rfl

theorem can_be_top_strip (g : Grammar) (pairs : List (Example × Example))
    {c : String} (hc : c ∈ g.constraints) :
    RCDLearner.can_be_top c (pairs.map (stripPair g.constraints)) =
      RCDLearner.can_be_top c pairs := by
  unfold RCDLearner.can_be_top
  apply all_map_congr
  intro wl _
  show decide (vget (stripViolations g.constraints wl.1.violations) c ≤
    vget (stripViolations g.constraints wl.2.violations) c) = _
  rw [vget_strip hc, vget_strip hc]

theorem pair_satisfied_strip (g : Grammar) (wl : Example × Example)
    {stratum : List String} (hs : ∀ c ∈ stratum, c ∈ g.constraints) :
    RCDLearner.pair_satisfied (stripPair g.constraints wl) stratum =
      RCDLearner.pair_satisfied wl stratum := by
  unfold RCDLearner.pair_satisfied
  apply decide_eq_decide.mpr
  constructor
  · rintro ⟨c, hcs, hlt⟩
    refine ⟨c, hcs, ?_⟩
    have := hs c hcs
    rwa [show (stripPair g.constraints wl).1.violations =
        stripViolations g.constraints wl.1.violations from rfl,
      show (stripPair g.constraints wl).2.violations =
        stripViolations g.constraints wl.2.violations from rfl,
      vget_strip this, vget_strip this] at hlt
  · rintro ⟨c, hcs, hlt⟩
    refine ⟨c, hcs, ?_⟩
    have := hs c hcs
    rw [show (stripPair g.constraints wl).1.violations =
        stripViolations g.constraints wl.1.violations from rfl,
      show (stripPair g.constraints wl).2.violations =
        stripViolations g.constraints wl.2.violations from rfl,
      vget_strip this, vget_strip this]
    exact hlt

theorem buildStrata_strip (g : Grammar) :
    ∀ (fuel : Nat) (pairs : List (Example × Example))
      (unranked : List String), (∀ c ∈ unranked, c ∈ g.constraints) →
      RCDLearner.buildStrata fuel (pairs.map (stripPair g.constraints))
        unranked = RCDLearner.buildStrata fuel pairs unranked := by
  intro fuel
  induction fuel with
  | zero => intro pairs unranked _; rfl
  | succ n ih =>
    intro pairs unranked hsub
    unfold RCDLearner.buildStrata
    by_cases hu : unranked = []
    · simp [hu]
    · simp only [hu, if_false]
      have hnext : RCDLearner.nextStratum
          (pairs.map (stripPair g.constraints)) unranked =
          RCDLearner.nextStratum pairs unranked := by
        unfold RCDLearner.nextStratum
        rw [List.filter_congr
          (fun c hcu => can_be_top_strip g pairs (hsub c hcu))]
      rw [hnext]
      have hnsub : ∀ c ∈ RCDLearner.nextStratum pairs unranked,
          c ∈ g.constraints :=
        fun c hc => hsub c (nextStratum_subset pairs unranked c hc)
      have hpairs : (pairs.map (stripPair g.constraints)).filter
          (fun wl => !RCDLearner.pair_satisfied wl
            (RCDLearner.nextStratum pairs unranked)) =
          (pairs.filter (fun wl => !RCDLearner.pair_satisfied wl
            (RCDLearner.nextStratum pairs unranked))).map
            (stripPair g.constraints) := by
        rw [List.map_filter]
        congr 1
        apply List.filter_congr
        intro wl _
        show (!RCDLearner.pair_satisfied (stripPair g.constraints wl)
          (RCDLearner.nextStratum pairs unranked)) = _
        rw [pair_satisfied_strip g wl hnsub]
      rw [hpairs]
      congr 1
      exact ih _ _ (fun c hc => hsub c (List.mem_of_mem_filter hc))

/-- C3 for RCD: unknown violation keys never influence
`RCDLearner.learn`. -/
theorem rcd_learn_strip (g : Grammar) :
    RCDLearner.learn (stripGrammar g) = RCDLearner.learn g := by
  unfold RCDLearner.learn rcdStrata
  show PartialOrder.mk g.constraints (strataEdges (RCDLearner.buildStrata
      (g.constraints.dedup.length + 1)
      (RCDLearner.get_winner_loser_pairs (stripGrammar g))
      g.constraints.dedup)) = _
  rw [wl_pairs_strip,
    buildStrata_strip g _ _ _ (fun c hc => List.mem_dedup.mp hc)]

/-- The index-preserving strip map on indexed examples. -/
def stripIdx (decl : List String) (p : Nat × Example) : Nat × Example :=
  (p.1, stripExample decl p.2)

theorem enum_strip (g : Grammar) :
    (stripGrammar g).examples.enum =
      g.examples.enum.map (stripIdx g.constraints) :=
  enum_map (stripExample g.constraints) g.examples

theorem minViol_strip (decl : List String) {c : String} (hc : c ∈ decl)
    (rem : List (Nat × Example)) :
    EDCDLearner.minViol (rem.map (stripIdx decl)) c =
      EDCDLearner.minViol rem c := by
  unfold EDCDLearner.minViol
  rw [List.map_map]
  rw [show (fun p : Nat × Example => vget p.2.violations c) ∘
      stripIdx decl = fun p : Nat × Example =>
        vget (stripViolations decl p.2.violations) c from rfl]
  rw [List.map_congr_left (fun p _ => vget_strip hc)]

theorem predictGo_strip (decl : List String) :
    ∀ (strata : List (Finset String)),
      (∀ s ∈ strata, ∀ c ∈ s, c ∈ decl) →
      ∀ (cands rem : List (Nat × Example)),
        EDCDLearner.predictGo (cands.map (stripIdx decl)) strata
            (rem.map (stripIdx decl)) =
          (EDCDLearner.predictGo cands strata rem).map (stripIdx decl) := by
  intro strata
  induction strata with
  | nil =>
    intro _ cands rem
    cases rem with
    | cons r rs => rfl
    | nil =>
      cases cands with
      | nil => rfl
      | cons c cs => rfl
  | cons stratum rest ih =>
    intro hstr cands rem
    have hrest : ∀ s ∈ rest, ∀ c ∈ s, c ∈ decl :=
      fun s hs => hstr s (List.mem_cons_of_mem _ hs)
    have hcur : ∀ c ∈ stratum, c ∈ decl :=
      hstr stratum (List.mem_cons_self ..)
    cases rem with
    | nil =>
      show EDCDLearner.predictGo (cands.map (stripIdx decl))
        (stratum :: rest) [] = _
      unfold EDCDLearner.predictGo
      dsimp only
      by_cases hst : stratum = ∅
      · rw [if_pos hst, if_pos hst]
        exact ih hrest cands []
      · rw [if_neg hst, if_neg hst]
        rfl
    | cons r1 rtail =>
      cases rtail with
      | nil => rfl
      | cons r2 rrest =>
        show EDCDLearner.predictGo (cands.map (stripIdx decl))
          (stratum :: rest)
          ((r1 :: r2 :: rrest).map (stripIdx decl)) = _
        have hfil : ((r1 :: r2 :: rrest).map (stripIdx decl)).filter
            (fun cand => decide (∀ c ∈ stratum,
              vget cand.2.violations c ≤ EDCDLearner.minViol
                ((r1 :: r2 :: rrest).map (stripIdx decl)) c)) =
            ((r1 :: r2 :: rrest).filter
              (fun cand => decide (∀ c ∈ stratum,
                vget cand.2.violations c ≤ EDCDLearner.minViol
                  (r1 :: r2 :: rrest) c))).map (stripIdx decl) := by
          rw [List.map_filter]
          congr 1
          apply List.filter_congr
          intro cand _
          show decide (∀ c ∈ stratum,
              vget (stripViolations decl cand.2.violations) c ≤
                EDCDLearner.minViol
                  ((r1 :: r2 :: rrest).map (stripIdx decl)) c) = _
          apply decide_eq_decide.mpr
          constructor
          · intro h c hcs
            have hcd := hcur c hcs
            have := h c hcs
            rwa [vget_strip hcd, minViol_strip decl hcd] at this
          · intro h c hcs
            have hcd := hcur c hcs
            rw [vget_strip hcd, minViol_strip decl hcd]
            exact h c hcs
        unfold EDCDLearner.predictGo
        dsimp only
        by_cases hst : stratum = ∅
        · rw [if_pos hst, if_pos hst]
          exact ih hrest cands (r1 :: r2 :: rrest)
        · rw [if_neg hst, if_neg hst]
          rw [hfil]
          exact ih hrest cands _

theorem predictGo_mem :
    ∀ (strata : List (Finset String)) (cands rem : List (Nat × Example))
      {r : Nat × Example},
      EDCDLearner.predictGo cands strata rem = Except.ok r →
      r ∈ rem ∨ r ∈ cands := by
  intro strata
  induction strata with
  | nil =>
    intro cands rem r h
    cases rem with
    | cons x rs =>
      unfold EDCDLearner.predictGo at h
      have hx := Except.ok.inj h
      subst hx
      exact Or.inl (List.mem_cons_self ..)
    | nil =>
      cases cands with
      | nil => exact absurd h (by unfold EDCDLearner.predictGo; simp)
      | cons c cs =>
        unfold EDCDLearner.predictGo at h
        exact Or.inr ((Except.ok.inj h) ▸ List.mem_cons_self ..)
  | cons stratum rest ih =>
    intro cands rem r h
    cases rem with
    | nil =>
      unfold EDCDLearner.predictGo at h
      dsimp only at h
      by_cases hst : stratum = ∅
      · rw [if_pos hst] at h
        exact ih cands [] h
      · rw [if_neg hst] at h
        exact absurd h (by simp)
    | cons r1 rtail =>
      cases rtail with
      | nil =>
        unfold EDCDLearner.predictGo at h
        exact Or.inl ((Except.ok.inj h) ▸ List.mem_cons_self ..)
      | cons r2 rrest =>
        unfold EDCDLearner.predictGo at h
        dsimp only at h
        by_cases hst : stratum = ∅
        · rw [if_pos hst] at h
          exact ih cands (r1 :: r2 :: rrest) h
        · rw [if_neg hst] at h
          rcases ih cands _ h with hmem | hmem
          · exact Or.inl (List.mem_of_mem_filter hmem)
          · exact Or.inr hmem

theorem demote_constraints (g : Grammar) (w lo : Example)
    (po : PartialOrder) :
    (EDCDLearner.demote_for_pair g w lo po).constraints = po.constraints := by
  unfold EDCDLearner.demote_for_pair
  refine foldl_inv (P := fun po1 => po1.constraints = po.constraints)
    _ _ po rfl ?_
  intro b a _ hb
  refine foldl_inv (P := fun po2 => po2.constraints = po.constraints)
    _ _ b hb ?_
  intro b2 a2 _ hb2
  by_cases hd : b2.dominates a2 a = true
  · rw [if_pos hd]; exact hb2
  · rw [if_neg hd]
    unfold PartialOrder.add_dominance
    exact hb2

theorem demote_strip (g : Grammar) (w lo : Example) (po : PartialOrder) :
    EDCDLearner.demote_for_pair (stripGrammar g)
      (stripExample g.constraints w) (stripExample g.constraints lo) po =
    EDCDLearner.demote_for_pair g w lo po := by
  have h1 : g.constraints.filter (fun c =>
      decide (vget (stripViolations g.constraints w.violations) c <
        vget (stripViolations g.constraints lo.violations) c)) =
      g.constraints.filter (fun c =>
        decide (vget w.violations c < vget lo.violations c)) :=
    List.filter_congr (fun c hc => by rw [vget_strip hc, vget_strip hc])
  have h2 : g.constraints.filter (fun c =>
      decide (vget (stripViolations g.constraints lo.violations) c <
        vget (stripViolations g.constraints w.violations) c)) =
      g.constraints.filter (fun c =>
        decide (vget lo.violations c < vget w.violations c)) :=
    List.filter_congr (fun c hc => by rw [vget_strip hc, vget_strip hc])
  unfold EDCDLearner.demote_for_pair
  show (g.constraints.filter (fun c =>
      decide (vget (stripViolations g.constraints w.violations) c <
        vget (stripViolations g.constraints lo.violations) c))).foldl
    (fun po1 wc => (g.constraints.filter (fun c =>
      decide (vget (stripViolations g.constraints lo.violations) c <
        vget (stripViolations g.constraints w.violations) c))).foldl
      (fun po2 lc =>
        if po2.dominates lc wc = true then po2
        else po2.add_dominance wc lc) po1) po = _
  rw [h1, h2]

theorem get_strata_mem_constraints (po : PartialOrder) :
    ∀ s ∈ po.get_strata, ∀ c ∈ s, c ∈ po.constraints := by
  intro s hs c hc
  have := getStrataAuxF_mem_subset po (po.constraints.toFinset.card + 1)
    po.constraints.toFinset (Nat.lt_succ_self _) s hs
  exact List.mem_toFinset.mp (this hc)

theorem processWinner_constraints (g : Grammar) (po : PartialOrder)
    (wi : Nat × Example) {res : PartialOrder × Bool}
    (h : EDCDLearner.processWinner g po wi = Except.ok res) :
    res.1.constraints = po.constraints := by
  unfold EDCDLearner.processWinner at h
  cases hpr : EDCDLearner.predictGo
      (g.examples.enum.filter
        (fun p => decide (p.2.input_form = wi.2.input_form)))
      po.get_strata
      (g.examples.enum.filter
        (fun p => decide (p.2.input_form = wi.2.input_form))) with
  | error e =>
    rw [hpr] at h
    exact absurd h (by simp)
  | ok pred =>
    rw [hpr] at h
    dsimp only at h
    by_cases hpw : pred = wi
    · rw [if_pos hpw] at h
      have := Except.ok.inj h
      rw [← this]
    · rw [if_neg hpw] at h
      have hres := Except.ok.inj h
      rw [← hres]
      refine foldl_inv (P := fun po2 => po2.constraints = po.constraints)
        _ _ po rfl ?_
      intro b a _ hb
      by_cases hcnd : a.2.optimal = true ∨ a = wi
      · rw [if_pos hcnd]; exact hb
      · rw [if_neg hcnd]
        rw [demote_constraints]
        exact hb

theorem processWinner_strip (g : Grammar) (po : PartialOrder)
    (hcon : po.constraints = g.constraints) {wi : Nat × Example}
    (hwi : wi ∈ g.examples.enum) :
    EDCDLearner.processWinner (stripGrammar g) po
      (stripIdx g.constraints wi) =
    EDCDLearner.processWinner g po wi := by
  unfold EDCDLearner.processWinner
  have hcomp : (stripGrammar g).examples.enum.filter
      (fun p => decide (p.2.input_form =
        (stripIdx g.constraints wi).2.input_form)) =
      (g.examples.enum.filter
        (fun p => decide (p.2.input_form = wi.2.input_form))).map
        (stripIdx g.constraints) := by
    rw [enum_strip, List.map_filter]
    congr 1
  rw [hcomp]
  have hstr : ∀ s ∈ po.get_strata, ∀ c ∈ s, c ∈ g.constraints := by
    intro s hs c hc
    rw [← hcon]
    exact get_strata_mem_constraints po s hs c hc
  rw [predictGo_strip g.constraints po.get_strata hstr]
  cases hpr : EDCDLearner.predictGo
      (g.examples.enum.filter
        (fun p => decide (p.2.input_form = wi.2.input_form)))
      po.get_strata
      (g.examples.enum.filter
        (fun p => decide (p.2.input_form = wi.2.input_form))) with
  | error e => rfl
  | ok pred =>
    dsimp only [Except.map]
    have hpredmem : pred ∈ g.examples.enum := by
      rcases predictGo_mem po.get_strata _ _ hpr with hm | hm
      · exact List.mem_of_mem_filter hm
      · exact List.mem_of_mem_filter hm
    have hiff : ∀ {q : Nat × Example}, q ∈ g.examples.enum →
        (stripIdx g.constraints q = stripIdx g.constraints wi ↔ q = wi) := by
      intro q hq
      constructor
      · intro he
        have hfst : (stripIdx g.constraints q).1 =
            (stripIdx g.constraints wi).1 := congrArg Prod.fst he
        exact enum_fst_inj hq hwi hfst
      · intro he
        rw [he]
    by_cases hpw : pred = wi
    · rw [if_pos hpw, if_pos ((hiff hpredmem).mpr hpw)]
    · rw [if_neg hpw, if_neg (fun hc => hpw ((hiff hpredmem).mp hc))]
      rw [List.foldl_map]
      have hfold := foldl_ext
        (fun po2 lo =>
          if (stripIdx g.constraints lo).2.optimal = true ∨
              stripIdx g.constraints lo = stripIdx g.constraints wi then po2
          else EDCDLearner.demote_for_pair (stripGrammar g)
            (stripIdx g.constraints wi).2 (stripIdx g.constraints lo).2 po2)
        (fun po2 lo =>
          if lo.2.optimal = true ∨ lo = wi then po2
          else EDCDLearner.demote_for_pair g wi.2 lo.2 po2)
        (g.examples.enum.filter
          (fun p => decide (p.2.input_form = wi.2.input_form))) po ?_
      · rw [hfold]
      · intro b lo hlo
        have hlomem : lo ∈ g.examples.enum := List.mem_of_mem_filter hlo
        dsimp only
        by_cases hcnd : lo.2.optimal = true ∨ lo = wi
        · rw [if_pos hcnd]
          rw [if_pos ?_]
          rcases hcnd with hc1 | hc2
          · exact Or.inl hc1
          · exact Or.inr ((hiff hlomem).mpr hc2)
        · rw [if_neg hcnd]
          rw [if_neg ?_]
          · exact demote_strip g wi.2 lo.2 b
          · intro hc
            apply hcnd
            rcases hc with hc1 | hc2
            · exact Or.inl hc1
            · exact Or.inr ((hiff hlomem).mp hc2)

theorem foldl_ext_inv {α β : Type} (P : β → Prop) (f f' : β → α → β) :
    ∀ (l : List α) (init : β), P init →
      (∀ b a, a ∈ l → P b → f b a = f' b a ∧ P (f' b a)) →
      l.foldl f init = l.foldl f' init := by
  intro l
  induction l with
  | nil => intro init _ _; rfl
  | cons a l ih =>
    intro init h0 hstep
    obtain ⟨heq, hP⟩ := hstep init a (List.mem_cons_self ..) h0
    rw [List.foldl_cons, List.foldl_cons, heq]
    exact ih (f' init a) hP
      (fun b x hx hb => hstep b x (List.mem_cons_of_mem _ hx) hb)

theorem passStep_error (g : Grammar) (e : String) (wi : Nat × Example) :
    EDCDLearner.passStep g (Except.error e) wi = Except.error e := rfl

theorem passStep_ok (g : Grammar) (po1 : PartialOrder × Bool)
    (wi : Nat × Example) :
    EDCDLearner.passStep g (Except.ok po1) wi =
    (match EDCDLearner.processWinner g po1.1 wi with
     | Except.error e => Except.error e
     | Except.ok po2 => Except.ok (po2.1, po1.2 || po2.2)) := rfl

theorem edcdPass_strip (g : Grammar) (winners : List (Nat × Example))
    (hw : ∀ wi ∈ winners, wi ∈ g.examples.enum) (po : PartialOrder)
    (hcon : po.constraints = g.constraints) :
    EDCDLearner.edcdPass (stripGrammar g)
      (winners.map (stripIdx g.constraints)) po =
    EDCDLearner.edcdPass g winners po := by
  unfold EDCDLearner.edcdPass
  rw [List.foldl_map]
  apply foldl_ext_inv
    (P := fun acc : Except String (PartialOrder × Bool) =>
      ∀ pob, acc = Except.ok pob → pob.1.constraints = g.constraints)
  · intro pob hok
    rw [(Except.ok.inj hok).symm]
    exact hcon
  · intro acc wi hwi hP
    dsimp only
    cases acc with
    | error e =>
      refine ⟨rfl, ?_⟩
      intro pob h
      rw [passStep_error] at h
      exact absurd h (by simp)
    | ok po1 =>
      have hcon1 : po1.1.constraints = g.constraints := hP po1 rfl
      rw [passStep_ok, passStep_ok,
        processWinner_strip g po1.1 hcon1 (hw wi hwi)]
      constructor
      · rfl
      · intro pob hok
        cases hpw : EDCDLearner.processWinner g po1.1 wi with
        | error e =>
          rw [hpw] at hok
          exact absurd hok (by simp)
        | ok po2 =>
          rw [hpw] at hok
          dsimp only at hok
          have := Except.ok.inj hok
          rw [← this]
          show po2.1.constraints = g.constraints
          rw [processWinner_constraints g po1.1 wi hpw]
          exact hcon1

theorem edcdPass_constraints (g : Grammar) (winners : List (Nat × Example))
    (po : PartialOrder) {res : PartialOrder × Bool}
    (h : EDCDLearner.edcdPass g winners po = Except.ok res) :
    res.1.constraints = po.constraints := by
  unfold EDCDLearner.edcdPass at h
  have hinv := foldl_inv
    (P := fun acc : Except String (PartialOrder × Bool) =>
      ∀ pob, acc = Except.ok pob → pob.1.constraints = po.constraints)
    (EDCDLearner.passStep g) winners (Except.ok (po, false))
    (fun pob hok => by rw [(Except.ok.inj hok).symm])
    ?_
  · exact hinv res h
  · intro acc wi _ hP
    cases acc with
    | error e =>
      intro pob hok
      rw [passStep_error] at hok
      exact absurd hok (by simp)
    | ok po1 =>
      intro pob hok
      rw [passStep_ok] at hok
      cases hpw : EDCDLearner.processWinner g po1.1 wi with
      | error e =>
        rw [hpw] at hok
        exact absurd hok (by simp)
      | ok po2 =>
        rw [hpw] at hok
        dsimp only at hok
        have := Except.ok.inj hok
        rw [← this]
        show po2.1.constraints = po.constraints
        rw [processWinner_constraints g po1.1 wi hpw]
        exact hP po1 rfl

theorem edcdLoop_strip (g : Grammar) (winners : List (Nat × Example))
    (hw : ∀ wi ∈ winners, wi ∈ g.examples.enum) :
    ∀ (fuel : Nat) (po : PartialOrder),
      po.constraints = g.constraints →
      EDCDLearner.edcdLoop (stripGrammar g)
        (winners.map (stripIdx g.constraints)) fuel po =
      EDCDLearner.edcdLoop g winners fuel po := by
  intro fuel
  induction fuel with
  | zero => intro po _; rfl
  | succ n ih =>
    intro po hcon
    unfold EDCDLearner.edcdLoop
    rw [edcdPass_strip g winners hw po hcon]
    cases hp : EDCDLearner.edcdPass g winners po with
    | error e => rfl
    | ok pr =>
      cases pr with
      | mk po' b =>
        cases b with
        | true =>
          dsimp only
          exact ih po' (by
            rw [edcdPass_constraints g winners po hp]
            exact hcon)
        | false => rfl

/-- C3 for EDCD: unknown violation keys never influence
`EDCDLearner.learn` (including which error, if any, it raises). -/
theorem edcd_learn_strip (g : Grammar) :
    EDCDLearner.learn (stripGrammar g) = EDCDLearner.learn g := by
  unfold EDCDLearner.learn
  have hwinners : (stripGrammar g).examples.enum.filter
      (fun p => p.2.optimal) =
      (g.examples.enum.filter (fun p => p.2.optimal)).map
        (stripIdx g.constraints) := by
    rw [enum_strip, List.map_filter]
    congr 1
  rw [hwinners]
  exact edcdLoop_strip g _
    (fun wi hwi => List.mem_of_mem_filter hwi) 1000
    (PartialOrder.init (stripGrammar g).constraints) rfl

theorem stripIdx_violations (cs : List String) (p : Nat × Example) :
    (stripIdx cs p).2.violations = stripViolations cs p.2.violations := rfl

theorem gla_harmony_strip (cs : List String) (rv : String → ℚ)
    (noise : Nat → ℚ) (ctr : Nat) (v : List (String × Nat)) :
    GLALearner.gla_harmony cs.dedup rv noise ctr (stripViolations cs v) =
    GLALearner.gla_harmony cs.dedup rv noise ctr v := by
  unfold GLALearner.gla_harmony stripViolations
  congr 1
  refine (foldl_filter_noop _ _ v 0 ?_).symm
  intro b a _ hp
  have ha : a.1 ∉ cs.dedup := by
    intro hmem
    rw [List.mem_dedup] at hmem
    simp only [decide_eq_false_iff_not] at hp
    exact hp hmem
  unfold GLALearner.noisyGet
  rw [if_neg ha]
  ring

theorem predictStep_none (decl : List String) (rv : String → ℚ)
    (noise : Nat → ℚ) (ctr : Nat) (cand : Nat × Example) :
    GLALearner.predictStep decl rv noise ctr none cand =
    some (cand, GLALearner.gla_harmony decl rv noise ctr cand.2.violations) :=
  rfl

theorem predictStep_some (decl : List String) (rv : String → ℚ)
    (noise : Nat → ℚ) (ctr : Nat) (best : (Nat × Example) × ℚ)
    (cand : Nat × Example) :
    GLALearner.predictStep decl rv noise ctr (some best) cand =
    (if best.2 < GLALearner.gla_harmony decl rv noise ctr cand.2.violations
     then some (cand,
       GLALearner.gla_harmony decl rv noise ctr cand.2.violations)
     else some best) := rfl

theorem predict_gla_mem (decl : List String) (rv : String → ℚ)
    (noise : Nat → ℚ) (ctr : Nat) (cands : List (Nat × Example))
    {p : Nat × Example}
    (h : GLALearner.predict_winner_gla decl rv noise ctr cands = some p) :
    p ∈ cands := by
  unfold GLALearner.predict_winner_gla at h
  obtain ⟨best, hb, hp1⟩ := Option.map_eq_some'.mp h
  have hmem : ∀ b : (Nat × Example) × ℚ,
      cands.foldl (GLALearner.predictStep decl rv noise ctr) none = some b →
      b.1 ∈ cands := by
    apply foldl_inv
      (P := fun acc : Option ((Nat × Example) × ℚ) =>
        ∀ b, acc = some b → b.1 ∈ cands)
      (GLALearner.predictStep decl rv noise ctr) cands none
    · intro b hb0
      exact absurd hb0 (by simp)
    · intro acc cand hcand hP b hok
      cases acc with
      | none =>
        rw [predictStep_none] at hok
        rw [← Option.some.inj hok]
        exact hcand
      | some best1 =>
        rw [predictStep_some] at hok
        by_cases hlt : best1.2 <
            GLALearner.gla_harmony decl rv noise ctr cand.2.violations
        · rw [if_pos hlt] at hok
          rw [← Option.some.inj hok]
          exact hcand
        · rw [if_neg hlt] at hok
          rw [← Option.some.inj hok]
          exact hP best1 rfl
  rw [← hp1]
  exact hmem best hb

theorem predictStep_strip (cs : List String) (rv : String → ℚ)
    (noise : Nat → ℚ) (ctr : Nat)
    (acc : Option ((Nat × Example) × ℚ)) (cand : Nat × Example) :
    GLALearner.predictStep cs.dedup rv noise ctr
      (acc.map (fun b => (stripIdx cs b.1, b.2))) (stripIdx cs cand) =
    (GLALearner.predictStep cs.dedup rv noise ctr acc cand).map
      (fun b => (stripIdx cs b.1, b.2)) := by
  cases acc with
  | none =>
    rw [Option.map_none', predictStep_none, predictStep_none,
      stripIdx_violations, gla_harmony_strip, Option.map_some']
  | some best =>
    rw [Option.map_some', predictStep_some, predictStep_some,
      stripIdx_violations, gla_harmony_strip]
    dsimp only
    by_cases hlt : best.2 <
        GLALearner.gla_harmony cs.dedup rv noise ctr cand.2.violations
    · rw [if_pos hlt, if_pos hlt, Option.map_some']
    · rw [if_neg hlt, if_neg hlt, Option.map_some']

theorem predict_fold_strip (cs : List String) (rv : String → ℚ)
    (noise : Nat → ℚ) (ctr : Nat) :
    ∀ (cands : List (Nat × Example)) (acc : Option ((Nat × Example) × ℚ)),
      (cands.map (stripIdx cs)).foldl
        (GLALearner.predictStep cs.dedup rv noise ctr)
        (acc.map (fun b => (stripIdx cs b.1, b.2))) =
      (cands.foldl (GLALearner.predictStep cs.dedup rv noise ctr) acc).map
        (fun b => (stripIdx cs b.1, b.2)) := by
  intro cands
  induction cands with
  | nil => intro acc; rfl
  | cons c cands ih =>
    intro acc
    rw [List.map_cons, List.foldl_cons, List.foldl_cons, predictStep_strip,
      ih]

theorem predict_gla_strip (cs : List String) (rv : String → ℚ)
    (noise : Nat → ℚ) (ctr : Nat) (cands : List (Nat × Example)) :
    GLALearner.predict_winner_gla cs.dedup rv noise ctr
      (cands.map (stripIdx cs)) =
    Option.map (stripIdx cs)
      (GLALearner.predict_winner_gla cs.dedup rv noise ctr cands) := by
  unfold GLALearner.predict_winner_gla
  have h := predict_fold_strip cs rv noise ctr cands none
  rw [Option.map_none'] at h
  rw [h, Option.map_map, Option.map_map]
  rfl

theorem update_rankings_strip (cs : List String) (rv : String → ℚ)
    (winner loser : Example) :
    GLALearner.update_rankings cs rv (stripExample cs winner)
      (stripExample cs loser) =
    GLALearner.update_rankings cs rv winner loser := by
  unfold GLALearner.update_rankings
  apply foldl_ext
  intro b c hc
  dsimp only
  show (if vget (stripViolations cs winner.violations) c <
      vget (stripViolations cs loser.violations) c then _
    else if vget (stripViolations cs loser.violations) c <
      vget (stripViolations cs winner.violations) c then _ else b) = _
  rw [vget_strip hc, vget_strip hc]

theorem gla_processWinner_strip (g : Grammar) (noise : Nat → ℚ)
    (acc : (String → ℚ) × Nat) (idx : Nat) :
    GLALearner.processWinner (stripGrammar g) noise acc idx =
    GLALearner.processWinner g noise acc idx := by
  unfold GLALearner.processWinner
  show (match (g.examples.map (stripExample g.constraints)).get? idx with
    | none => acc
    | some ex => _) = _
  rw [List.get?_map]
  cases hex : g.examples.get? idx with
  | none => rfl
  | some ex =>
    dsimp only [Option.map_some]
    have hcands : (stripGrammar g).examples.enum.filter
        (fun p => decide (p.2.input_form =
          (stripExample g.constraints ex).input_form)) =
        (g.examples.enum.filter
          (fun p => decide (p.2.input_form = ex.input_form))).map
          (stripIdx g.constraints) := by
      rw [enum_strip, List.map_filter]
      congr 1
    show (match GLALearner.predict_winner_gla
        (stripGrammar g).constraints.dedup acc.1 noise acc.2
        ((stripGrammar g).examples.enum.filter
          (fun p => decide (p.2.input_form =
            (stripExample g.constraints ex).input_form))) with
      | none => (acc.1, acc.2 + (stripGrammar g).constraints.dedup.length)
      | some p =>
        if p = (idx, stripExample g.constraints ex) then
          (acc.1, acc.2 + (stripGrammar g).constraints.dedup.length)
        else (GLALearner.update_rankings (stripGrammar g).constraints acc.1
          (stripExample g.constraints ex) p.2,
          acc.2 + (stripGrammar g).constraints.dedup.length)) = _
    rw [hcands]
    show (match GLALearner.predict_winner_gla g.constraints.dedup acc.1
        noise acc.2 ((g.examples.enum.filter
          (fun p => decide (p.2.input_form = ex.input_form))).map
          (stripIdx g.constraints)) with
      | none => (acc.1, acc.2 + g.constraints.dedup.length)
      | some p =>
        if p = (idx, stripExample g.constraints ex) then
          (acc.1, acc.2 + g.constraints.dedup.length)
        else (GLALearner.update_rankings g.constraints acc.1
          (stripExample g.constraints ex) p.2,
          acc.2 + g.constraints.dedup.length)) = _
    rw [predict_gla_strip]
    cases hpred : GLALearner.predict_winner_gla g.constraints.dedup acc.1
        noise acc.2 (g.examples.enum.filter
          (fun p => decide (p.2.input_form = ex.input_form))) with
    | none => rfl
    | some p =>
      rw [Option.map_some']
      dsimp only
      have hpm : p ∈ g.examples.enum :=
        List.mem_of_mem_filter (predict_gla_mem _ _ _ _ _ hpred)
      by_cases hcond : p = (idx, ex)
      · have hcond1 : stripIdx g.constraints p =
            (idx, stripExample g.constraints ex) := by
          rw [hcond]; rfl
        rw [if_pos hcond1, if_pos hcond]
      · have hcond1 : ¬ stripIdx g.constraints p =
            (idx, stripExample g.constraints ex) := by
          intro hc
          apply hcond
          have h1 : p.1 = idx := congrArg Prod.fst hc
          have h2 := mem_enum_get? hpm
          rw [h1, hex] at h2
          exact Prod.ext h1 (Option.some.inj h2).symm
        rw [if_neg hcond1, if_neg hcond]
        show (GLALearner.update_rankings g.constraints acc.1
          (stripExample g.constraints ex)
          (stripExample g.constraints p.2), _) = _
        rw [update_rankings_strip]

theorem glaLoop_strip (g : Grammar) (noise : Nat → ℚ)
    (shuffles : Nat → List Nat → List Nat) :
    ∀ (fuel : Nat) (st : List Nat × ((String → ℚ) × Nat)),
      GLALearner.glaLoop (stripGrammar g) noise shuffles fuel st =
      GLALearner.glaLoop g noise shuffles fuel st := by
  intro fuel
  induction fuel with
  | zero => intro st; rfl
  | succ n ih =>
    intro st
    unfold GLALearner.glaLoop
    rw [foldl_ext (GLALearner.processWinner (stripGrammar g) noise)
      (GLALearner.processWinner g noise) (shuffles n st.1) st.2
      (fun b i _ => gla_processWinner_strip g noise b i), ih]

theorem winnerIdx_strip (g : Grammar) :
    GLALearner.winnerIdx (stripGrammar g) = GLALearner.winnerIdx g := by
  unfold GLALearner.winnerIdx
  rw [enum_strip, List.map_filter, List.map_map]
  congr 1

/-- C3 for GLA: unknown violation keys never influence the ranking
values nor the returned `PartialOrder`, for every noise and shuffle
stream. -/
theorem gla_values_strip (g : Grammar) (noise : Nat → ℚ)
    (shuffles : Nat → List Nat → List Nat) :
    GLALearner.learnValues (stripGrammar g) noise shuffles =
    GLALearner.learnValues g noise shuffles := by
  unfold GLALearner.learnValues
  rw [winnerIdx_strip, glaLoop_strip]

theorem gla_learn_strip (g : Grammar) (noise : Nat → ℚ)
    (shuffles : Nat → List Nat → List Nat) :
    GLALearner.learn (stripGrammar g) noise shuffles =
    GLALearner.learn g noise shuffles := by
  unfold GLALearner.learn
  show GLALearner.rankings_to_partial_order g.constraints
    (GLALearner.learnValues (stripGrammar g) noise shuffles) = _
  rw [gla_values_strip]

/-- C3 (amended): deleting from every example the violation entries
whose key is not a declared constraint name changes nothing about the
result of `learn` for the OT, RCD, EDCD, GLA (for every noise and
shuffle stream) and HG learners — unknown keys are tolerated and never
participate in learning.  MaxEnt is excluded: its gradient accumulation
raises a KeyError on an unknown key (see the counterexample). -/
theorem claim_C3_amended :
    (∀ g : Grammar,
      OTLearner.learn (stripGrammar g) = OTLearner.learn g) ∧
    (∀ g : Grammar,
      RCDLearner.learn (stripGrammar g) = RCDLearner.learn g) ∧
    (∀ g : Grammar,
      EDCDLearner.learn (stripGrammar g) = EDCDLearner.learn g) ∧
    (∀ (g : Grammar) (noise : Nat → ℚ)
        (shuffles : Nat → List Nat → List Nat),
      GLALearner.learn (stripGrammar g) noise shuffles =
        GLALearner.learn g noise shuffles) ∧
    (∀ g : Grammar,
      HGLearner.learn (stripGrammar g) = HGLearner.learn g) :=
  ⟨ot_learn_strip, rcd_learn_strip, edcd_learn_strip,
    gla_learn_strip, hg_learn_strip⟩

/-- The C3 counterexample grammar: one declared constraint `A`, one
optimal example whose violations name the undeclared constraint `B`. -/
def unknownKeyGrammar : Grammar :=
  ⟨["A"], [⟨"i", "o", true, [("B", 1)]⟩]⟩

/-- C3 counterexample: `MaxEntLearner.learn` does not tolerate an unknown
violation key — the gradient table has exactly the declared names as
keys, so the accumulation `gradients[c_name] += ...` raises `KeyError`
(for any value of `exp`, here instantiated with the constant 1). -/
theorem claim_C3_counterexample :
    MaxEntLearner.learn (fun _ => 1) unknownKeyGrammar =
      Except.error "KeyError: B" := by
  rfl

/-- C10: the facade's algorithm selector is case-insensitive: the
selector is lowercased once in `Learner.__init__`, so constructing the
`Learner` with any string `s` is identical to constructing it with the
lowercased string — in particular `train()` behaves identically. -/
theorem claim_C10_selector_case_insensitive (g : Grammar) (s : String) :
    Learner.init g s = Learner.init g s.toLower ∧
    (Learner.init g s).train = (Learner.init g s.toLower).train := by
  have h : Learner.init g s = Learner.init g s.toLower := by
    unfold Learner.init
    rw [string_toLower_idem]
  exact ⟨h, by rw [h]⟩

/-- C1 counterexample: the facade does not accept the six-selector set
claimed by the spec; the RCD selector `"rcd"` is rejected with the
unknown-algorithm error instead of delegating to `RCDLearner`. -/
theorem claim_C1_counterexample :
    (Learner.init ⟨["A"], []⟩ "rcd").train =
      Except.error "Unknown algorithm: rcd" := by
  have h : ("rcd" : String).toLower = "rcd" := by
    rw [String.toLower, String.map_eq]
    rfl
  unfold Learner.init
  rw [h]
  rfl

/-- C1 (amended): `Learner.train` accepts exactly the selectors
`{"ot", "hg"}` (after lowercasing): `"ot"` delegates to the basic
constraint-demotion learner `OTLearner`, `"hg"` to `HGLearner`, each
returning that learner's `PartialOrder`; every other selector fails with
the `ValueError("Unknown algorithm: ...")` condition. -/
theorem claim_C1_train_dispatch (g : Grammar) (s : String) :
    (Learner.init g s).train =
      if s.toLower = "ot" then Except.ok (OTLearner.learn g)
      else if s.toLower = "hg" then Except.ok (HGLearner.learn g)
      else Except.error ("Unknown algorithm: " ++ s.toLower) := by
  rfl

/-- The concrete grammar of the RCD round-trip property: constraints
NOCODA, MAX, DEP; winner /pat/→pa.ta violating DEP once, losers
/pat/→pat (NOCODA : 1) and /pat/→pa (MAX : 1). -/
def rcdExampleGrammar : Grammar :=
  ⟨["NOCODA", "MAX", "DEP"],
    [⟨"pat", "pa.ta", true, [("DEP", 1)]⟩,
     ⟨"pat", "pat", false, [("NOCODA", 1)]⟩,
     ⟨"pat", "pa", false, [("MAX", 1)]⟩]⟩

/-- C6: on the concrete {NOCODA, MAX, DEP} grammar, `RCDLearner.learn`
returns a `PartialOrder` ranking DEP below both NOCODA and MAX:
`dominates(NOCODA, DEP)` and `dominates(MAX, DEP)` both hold. -/
theorem claim_C6_rcd_roundtrip :
    (RCDLearner.learn rcdExampleGrammar).dominates "NOCODA" "DEP" = true ∧
    (RCDLearner.learn rcdExampleGrammar).dominates "MAX" "DEP" = true := by
  decide

end Pyoptimal
